/-
Verification of the csvutil field-mapping engine (Clever/csvutil).

Shallow embedding of the Go sources:
  * mapping.go        — `structureFromStruct` (schema derivation from struct tags)
  * decode.go         — `NewDecoderFromCSVReader`, `normalizeHeader`, `Decoder.Read`
  * encode.go         — `NewEncoderFromCSVWriter`, `Encoder.Write`

Modelling conventions:
  * Go `reflect.Kind` is restricted to the kinds the library distinguishes
    (`Invalid`, `String`, `Int`, `Bool`, `Slice`); `Kind.invalid` is the zero
    value, as in Go.
  * A struct value is a `Record`: a list of `Value`s indexed by struct field
    position (`fieldIndex`).  In-place mutation through `reflect` is modelled
    by returning the updated record.
  * Go strings are Lean `String`s; `strings.TrimSpace` / `strings.ToLower`
    are `String.trim` / `String.toLower` (they agree on ASCII input, which is
    all the library's own literals use).
  * `strings.Split(s, ",")` and `strings.Join(xs, ",")` are modelled
    character-exactly by `splitComma` / `joinComma` below.
  * `strconv.Atoi` / `strconv.Itoa` / `strconv.ParseBool` /
    `strconv.FormatBool` are modelled by `atoi` / `itoa` / `parseBool` /
    `formatBool`, including `Atoi`'s error string (machine-word range errors
    are not modelled; `Int` is unbounded).
  * `encoding.TextMarshaler` / `encoding.TextUnmarshaler` implementations are
    determined by a field's type; they are modelled by a `Codecs` environment
    keyed by `fieldIndex` (the struct position determines the type).
-/
import Mathlib

deriving instance DecidableEq for Except

namespace Csvutil

/-- The subset of `reflect.Kind` the library stores in `csvField.fieldType`
and `csvField.sliceType`.  `invalid` is the zero value (`reflect.Invalid`). -/
inductive Kind where
  | invalid
  | kstring
  | kint
  | kbool
  | kslice
deriving DecidableEq, Repr, Inhabited

/-- mapping.go `csvField`.  The Go zero value (used for unmapped header
slots) is `default`: `required = false`, `fieldName = ""`, `fieldIndex = 0`,
both kinds `reflect.Invalid`, both custom flags `false`. -/
structure csvField where
  required : Bool := false
  fieldName : String := ""
  fieldIndex : Nat := 0
  fieldType : Kind := .invalid
  sliceType : Kind := .invalid
  customMarshaler : Bool := false
  customUnmarshaler : Bool := false
deriving DecidableEq, Repr, Inhabited

/-- `strings.TrimSpace`: drop whitespace characters from both ends.
(`Char.isWhitespace` covers the ASCII whitespace Go trims; the extra Unicode
space classes Go also trims play no role in this development.) -/
def trimSpace (s : String) : String :=
  (((s.data.dropWhile Char.isWhitespace).reverse.dropWhile Char.isWhitespace).reverse).asString

/-- `strings.ToLower`, character by character (ASCII; the library compares
the result only for equality). -/
def toLowerStr (s : String) : String :=
  (s.data.map Char.toLower).asString

/-- decode.go `normalizeHeader`: `strings.ToLower(strings.TrimSpace(header))`. -/
def normalizeHeader (header : String) : String :=
  toLowerStr (trimSpace header)

/-- `strings.Split(s, ",")` at the character level: split on every comma,
never dropping empty parts (`Split("", ",") = [""]`, `Split(",", ",") = ["", ""]`). -/
def splitCommaChars : List Char → List (List Char)
  | [] => [[]]
  | c :: rest =>
    if c = ',' then [] :: splitCommaChars rest
    else
      match splitCommaChars rest with
      | [] => [[c]]
      | part :: parts => (c :: part) :: parts

/-- `strings.Split(s, ",")`. -/
def splitComma (s : String) : List String :=
  (splitCommaChars s.data).map List.asString

/-- `strings.Join(parts, ",")` at the character level. -/
def joinCommaChars : List (List Char) → List Char
  | [] => []
  | [part] => part
  | part :: rest => part ++ ',' :: joinCommaChars rest

/-- `strings.Join(parts, ",")`. -/
def joinComma (parts : List String) : String :=
  (joinCommaChars (parts.map String.data)).asString

/-- Decimal value of the digit list `ds` (most significant first). -/
def natOfDigits (ds : List Char) : Nat :=
  ds.foldl (fun a c => a * 10 + (c.toNat - '0'.toNat)) 0

/-- `strconv.Atoi`: an optional leading sign, then one or more ASCII
digits; anything else is a syntax error carrying `strconv.Atoi`'s message.
(For the empty string `List.headI` is an arbitrary non-sign character, so
the digit check fails, as in Go.)  Range errors of the machine `int` are
not modelled (the result is an unbounded `Int`). -/
def atoi (s : String) : Except String Int :=
  let ds : List Char :=
    if s.data.headI = '-' ∨ s.data.headI = '+' then s.data.tail else s.data
  if ds ≠ [] ∧ ds.all Char.isDigit then
    .ok ((if s.data.headI = '-' then (-1 : Int) else 1) * (natOfDigits ds : Nat))
  else
    .error ("strconv.Atoi: parsing \"" ++ s ++ "\": invalid syntax")

/-- Fuelled helper for `natDigits`; `fuel ≥ n` makes it total on `n`. -/
def natDigitsF : Nat → Nat → List Char
  | 0, _ => []
  | _, 0 => []
  | fuel + 1, n + 1 =>
    natDigitsF fuel ((n + 1) / 10) ++ [Char.ofNat ((n + 1) % 10 + '0'.toNat)]

/-- minimal-decimal digit string of a natural number (empty for 0). -/
def natDigits (n : Nat) : List Char :=
  natDigitsF n n

/-- `strconv.Itoa` (via `int64` formatting): minimal decimal digits,
leading `-` for negatives, `"0"` for zero. -/
def itoa (n : Int) : String :=
  if n = 0 then "0"
  else if n < 0 then ("-" ++ (natDigits n.natAbs).asString)
  else (natDigits n.natAbs).asString

/-- `strconv.ParseBool`: exactly the listed literals. -/
def parseBool (s : String) : Option Bool :=
  if s = "1" ∨ s = "t" ∨ s = "T" ∨ s = "TRUE" ∨ s = "true" ∨ s = "True" then
    some true
  else if s = "0" ∨ s = "f" ∨ s = "F" ∨ s = "FALSE" ∨ s = "false" ∨ s = "False" then
    some false
  else none

/-- `strconv.FormatBool`. -/
def formatBool (b : Bool) : String :=
  if b then "true" else "false"

/-! ## Schema derivation (mapping.go `structureFromStruct`) -/

/-- The reflection facts `structureFromStruct` consumes about one struct
field, in declaration order: the Go field name, the result of
`Tag.Get("csv")` (empty when the tag is absent), the `reflect.Kind` of the
field's type, the element kind when that is a slice, and the results of the
two `doesImplement` capability probes (which in Go already account for
pointer-receiver implementations via `reflect.PtrTo`). -/
structure GoField where
  name : String
  tag : String
  typeKind : Kind := .invalid
  elemKind : Kind := .invalid
  implMarshaler : Bool := false
  implUnmarshaler : Bool := false
deriving DecidableEq, Repr, Inhabited

/-- mapping.go's `unexportedfield` regexp `^[a-z].*$`: the name starts with
a lowercase ASCII letter. -/
def isUnexported (name : String) : Bool :=
  match name.data with
  | [] => false
  | c :: _ => 'a' ≤ c && c ≤ 'z'

/-- One iteration of the `structureFromStruct` loop body for field `f` at
struct index `i`, given the mappings accumulated so far.  `none` in the
result means the field was skipped (`continue`). -/
def deriveField (acc : List csvField) (i : Nat) (f : GoField) :
    Except String (Option csvField) :=
  let tags := splitComma f.tag
  if tags.length > 2 then
    .error ("csvutil tags should only include name [and optionally required], found "
      ++ toString tags.length ++ " values")
  else
    let csvFieldName := tags.headI
    if csvFieldName = "" then
      .ok none
    else if isUnexported f.name then
      .error ("cannot access field '" ++ f.name ++ "'")
    else if tags.length = 2 ∧ tags.getD 1 "" ≠ "required" then
      .error ("unknown second value found in csv tags: '" ++ tags.getD 1 "" ++ "'")
    else
      let base : csvField :=
        { required := tags.length == 2
          fieldName := csvFieldName
          fieldIndex := i
          customMarshaler := f.implMarshaler
          customUnmarshaler := f.implUnmarshaler }
      let withKind : Except String csvField :=
        match f.typeKind with
        | .invalid => .error ("got invalid type: " ++ f.name)
        | .kstring => .ok { base with fieldType := .kstring }
        | .kint => .ok { base with fieldType := .kint }
        | .kbool => .ok { base with fieldType := .kbool }
        | .kslice =>
          match f.elemKind with
          | .kstring => .ok { base with fieldType := .kslice, sliceType := .kstring }
          | .kint => .ok { base with fieldType := .kslice, sliceType := .kint }
          | _ => .error "only string & int slices allowed"
      match withKind with
      | .error e => .error e
      | .ok field =>
        if acc.any (fun m => m.fieldName == field.fieldName) then
          .error ("two attributes w/ csv field name: '" ++ field.fieldName ++ "'")
        else
          .ok (some field)

/-- The `structureFromStruct` loop over the remaining fields, carrying the
next struct index and the accumulated mappings. -/
def structAux : Nat → List csvField → List GoField → Except String (List csvField)
  | _, acc, [] => .ok acc
  | i, acc, f :: rest =>
    match deriveField acc i f with
    | .error e => .error e
    | .ok none => structAux (i + 1) acc rest
    | .ok (some field) => structAux (i + 1) (acc ++ [field]) rest

/-- mapping.go `structureFromStruct`, as a function of the reflection facts
of the struct's fields in declaration order.  (The Go `dest == nil` guard is
about the reflection input itself and has no counterpart here.) -/
def structureFromStruct (fields : List GoField) : Except String (List csvField) :=
  match structAux 0 [] fields with
  | .error e => .error e
  | .ok csvMappings =>
    if csvMappings.length = 0 then
      .error "no fields found for CSV marshaling"
    else
      .ok csvMappings

/-! ## Header reconciliation (decode.go `NewDecoderFromCSVReader`) -/

/-- The inner loop `for _, f := range mappings { if h == normalizeHeader(f.fieldName)
{ sortedMappings[i] = f } }` for one (already normalized) header cell `h`,
starting from the zero `csvField` the slot was initialised with: the LAST
matching field is kept, the zero value when none matches. -/
def slotFor (mappings : List csvField) (h : String) : csvField :=
  mappings.foldl (fun acc f => if h = normalizeHeader f.fieldName then f else acc) default

/-- The header loop of `NewDecoderFromCSVReader`: walks the header cells,
normalizing each, failing on the first cell whose normalization was already
seen, and otherwise slotting `slotFor` in parallel to the CSV columns.
`seen` is the `headersSeen` map.  (The `extraHeaders` accumulation has no
observable effect and is not modelled.) -/
def reconcileAux (mappings : List csvField) :
    List String → List String → Except String (List csvField)
  | _, [] => .ok []
  | seen, h :: rest =>
    let hn := normalizeHeader h
    if seen.contains hn then
      .error ("saw header column '" ++ hn ++ "' twice, CSV headers must be unique")
    else
      match reconcileAux mappings (hn :: seen) rest with
      | .error e => .error e
      | .ok tl => .ok (slotFor mappings hn :: tl)

/-- The required-columns pass: the first field marked required whose
normalized name is absent from the normalized headers yields the error. -/
def checkRequired (mappings : List csvField) (headers : List String) :
    Except String Unit :=
  match mappings.find? (fun f =>
      f.required && !((headers.map normalizeHeader).contains (normalizeHeader f.fieldName))) with
  | some f => .error ("column '" ++ f.fieldName ++ "' required but not found")
  | none => .ok ()

/-- decode.go `Decoder`: the reconciled mapping, the column count, and the
`csv.Reader`'s remaining (already tokenized) data rows. -/
structure DecoderM where
  mappings : List csvField
  numColumns : Nat
  rows : List (List String)
deriving DecidableEq, Repr, Inhabited

/-- decode.go `NewDecoderFromCSVReader`, as a function of the derived
mappings, the header row the `csv.Reader` produced, and the remaining data
rows: audit that every `reflect.Invalid`-typed mapping has a custom
unmarshaler, then reconcile the headers, then check required columns.
(The `csvR.Read()` header-read error path is not modelled: `headers` is the
successfully read header row.) -/
def newDecoder (mappings : List csvField) (headers : List String)
    (rows : List (List String)) : Except String DecoderM :=
  match mappings.find? (fun m => m.fieldType == .invalid && !m.customUnmarshaler) with
  | some m =>
    .error ("unsupported field type found that does not implement the encoding.TextUnmarshaler interface: "
      ++ m.fieldName)
  | none =>
    match reconcileAux mappings [] headers with
    | .error e => .error e
    | .ok sortedMappings =>
      match checkRequired mappings headers with
      | .error e => .error e
      | .ok _ => .ok ⟨sortedMappings, headers.length, rows⟩

/-! ## Row codec (decode.go `Decoder.Read`, encode.go `Encoder.Write`) -/

/-- The value stored in one struct field.  `vOpaque` stands for a value of a
type the library treats as `reflect.Invalid` (handled only through its text
codec); its `String` payload is the abstract state of that value, with `""`
the Go zero value. -/
inductive Value where
  | vStr (s : String)
  | vInt (n : Int)
  | vBool (b : Bool)
  | vStrs (l : List String)
  | vInts (l : List Int)
  | vOpaque (s : String)
deriving DecidableEq, Repr, Inhabited

/-- A struct value: one `Value` per struct field, indexed by `fieldIndex`. -/
abbrev Record := List Value

/-- The text codec of a field's type: `MarshalText` / `UnmarshalText` on the
opaque payload.  A field whose type implements neither is never consulted. -/
structure Codec where
  marshal : String → Except String String
  unmarshal : String → Except String String

/-- The codec environment, keyed by struct field position (in Go the codec
is determined by the field's type, which the position determines). -/
def Codecs := Nat → Codec

/-- A codec environment for schemas without custom-codec fields. -/
def noCodecs : Codecs := fun _ => ⟨fun _ => .error "", fun _ => .error ""⟩

/-- `destStruct.Elem().Field(i).Set…`: overwrite field `i` of the record. -/
def setField (r : Record) (i : Nat) (v : Value) : Record :=
  List.set r i v

/-- `srcStruct.Field(i)`: read field `i` of the record. -/
def getField (r : Record) (i : Nat) : Value :=
  List.getD r i default

/-- The `arrayIntValues` loop of the `reflect.Slice`/`reflect.Int` decode
branch: parse each comma-separated element with `strconv.Atoi`, returning at
the FIRST failure the error `failed to coerce value '<elem>' (indexed <i>)
into integer for field <name>: <cause>`. -/
def parseIntsAux (name : String) : Nat → List String → Except String (List Int)
  | _, [] => .ok []
  | i, s :: rest =>
    match atoi s with
    | .error cause =>
      .error ("failed to coerce value '" ++ s ++ "' (indexed " ++ toString i
        ++ ") into integer for field " ++ name ++ ": " ++ cause)
    | .ok n =>
      match parseIntsAux name (i + 1) rest with
      | .error e => .error e
      | .ok ns => .ok (n :: ns)

/-- The effect of one iteration of `Decoder.Read`'s loop body on the
destination record: do nothing (`continue`), overwrite the slot's field
(`fieldIndex` is taken from the slot itself), or stop the call with an
error. -/
inductive StepRes where
  | skip
  | set (v : Value)
  | fail (msg : String)
deriving DecidableEq, Repr

/-- One iteration of `Decoder.Read`'s loop body (`for i, strValue := range
row`) for the slot `m` and the raw cell `s`: trim the cell, skip unmapped
slots and empty optional values, fail on empty required values, then
dispatch — custom unmarshaler first, else by declared kind.  The Go `panic`
branches (a `sliceType` or `fieldType` that construction cannot produce)
are modelled as `fail` with the panic message; the theorems' hypotheses
keep them unreachable, as construction does in Go. -/
def decodeCell (codecs : Codecs) (m : csvField) (s : String) : StepRes :=
  let strValue := trimSpace s
  if m.fieldName = "" then
    .skip
  else if strValue = "" then
    if m.required then
      .fail ("column " ++ m.fieldName ++ " required but no value found")
    else
      .skip
  else if m.customUnmarshaler then
    match (codecs m.fieldIndex).unmarshal strValue with
    | .error cause =>
      .fail ("failed to coerce value '" ++ strValue
        ++ "' using custom marshaler for field " ++ m.fieldName ++ ": " ++ cause)
    | .ok payload => .set (.vOpaque payload)
  else
    match m.fieldType with
    | .kstring => .set (.vStr strValue)
    | .kint =>
      match atoi strValue with
      | .error _ =>
        .fail ("failed to coerce value '" ++ strValue
          ++ "' into integer for field " ++ m.fieldName)
      | .ok n => .set (.vInt n)
    | .kbool =>
      match parseBool strValue with
      | none =>
        .fail ("failed to coerce value '" ++ strValue
          ++ "' into boolean for field " ++ m.fieldName)
      | some b => .set (.vBool b)
    | .kslice =>
      let arrayStrValues := splitComma strValue
      match m.sliceType with
      | .kstring => .set (.vStrs arrayStrValues)
      | .kint =>
        match parseIntsAux m.fieldName 0 arrayStrValues with
        | .error e => .fail e
        | .ok ns => .set (.vInts ns)
      | _ => .fail "panic: slice fields can only be string."
    | _ => .fail "panic: type not found"

/-- The per-row loop of `Decoder.Read`, walking the reconciled mapping in
lockstep with the row's cells and mutating the destination record in place.
The result is the record state when the loop stops (so partial mutation on
error is observable) together with the error, if any. -/
def decodeCells (codecs : Codecs) :
    List csvField → List String → Record → Record × Option String
  | _, [], r => (r, none)
  | [], _ :: _, r => (r, none)
  | m :: ms, s :: ss, r =>
    match decodeCell codecs m s with
    | .skip => decodeCells codecs ms ss r
    | .set v => decodeCells codecs ms ss (setField r m.fieldIndex v)
    | .fail e => (r, some e)

/-- The outcome of one `Decoder.Read` call: the end-of-stream signal
(`io.EOF`, returned by the code as the bare sentinel), a wrapped error
message, or success. -/
inductive ReadRes where
  | eof
  | err (msg : String)
  | ok
deriving DecidableEq, Repr

/-- decode.go `Decoder.Read`: read one row from the underlying reader
(`io.EOF` is passed through as the distinguished signal), check the column
count, then decode the cells.  The result is the `Read` outcome, the state
of `*dest` after the call, and the decoder's reader state after the call
(the destination-pointer guards precede all of this and concern arguments
the embedding cannot express; `dest` here is a valid pointed-to struct). -/
def dRead (codecs : Codecs) (d : DecoderM) (dest : Record) :
    ReadRes × Record × DecoderM :=
  match d.rows with
  | [] => (.eof, dest, d)
  | row :: rest =>
    let d2 : DecoderM := ⟨d.mappings, d.numColumns, rest⟩
    if row.length ≠ d.numColumns then
      (.err ("expected " ++ toString d.numColumns ++ " columns, found "
        ++ toString row.length), dest, d2)
    else
      match decodeCells codecs d.mappings row dest with
      | (r, none) => (.ok, r, d2)
      | (r, some e) => (.err e, r, d2)

/-! ## Encoder (encode.go) -/

/-- The per-field rendering of `Encoder.Write`'s loop body: custom marshaler
first, then the kind switch. -/
def encodeField (codecs : Codecs) (m : csvField) (v : Value) : Except String String :=
  if m.customMarshaler then
    match v with
    | .vOpaque payload =>
      match (codecs m.fieldIndex).marshal payload with
      | .error cause =>
        .error ("failed to coerce value '" ++ payload
          ++ "' into string using custom marshaler for field " ++ m.fieldName
          ++ ": " ++ cause)
      | .ok buf => .ok buf
    | _ => .error "panic: interface conversion"
  else
    match m.fieldType, v with
    | .kstring, .vStr s => .ok s
    | .kint, .vInt n => .ok (itoa n)
    | .kbool, .vBool b => .ok (formatBool b)
    | .kslice, .vStrs l =>
      match m.sliceType with
      | .kstring => .ok (joinComma l)
      | _ => .error "panic: interface conversion"
    | .kslice, .vInts l =>
      match m.sliceType with
      | .kint => .ok (joinComma (l.map itoa))
      | _ => .error "panic: interface conversion"
    | _, _ => .error "panic: type not found"

/-- The `rowValues` loop of `Encoder.Write`: render every mapped field of
the source record in schema order, stopping at the first failure. -/
def eWriteRow (codecs : Codecs) (mappings : List csvField) (src : Record) :
    Except String (List String) :=
  match mappings with
  | [] => .ok []
  | m :: ms =>
    match encodeField codecs m (getField src m.fieldIndex) with
    | .error e => .error e
    | .ok cell =>
      match eWriteRow codecs ms src with
      | .error e => .error e
      | .ok cells => .ok (cell :: cells)

/-- The argument of `Encoder.Write`, an `interface{}`: the untyped nil
interface, a struct passed by value, or a pointer to a struct —
`byPtr none` is a typed nil pointer (non-nil as an interface value). -/
inductive Source where
  | nilInterface
  | byValue (r : Record)
  | byPtr (p : Option Record)
deriving DecidableEq, Repr

/-- The outcome of one `Encoder.Write` call: an error return, a runtime
panic (which is not an error return), or the row handed to the writer. -/
inductive WriteRes where
  | err (msg : String)
  | panicked (msg : String)
  | ok (row : List String)
deriving DecidableEq, Repr

/-- encode.go `Encoder.Write`: reject only `src == nil` (the untyped nil
interface); dereference a pointer argument with `Elem()`.  A typed nil
pointer passes the nil check, `Elem()` yields the invalid `reflect.Value`,
and the first `srcStruct.Field` call of the loop panics — unless the
mapping list is empty, in which case the loop body never runs.  On success
the produced row is written and flushed (the writer is not modelled). -/
def eWrite (codecs : Codecs) (mappings : List csvField) (src : Source) : WriteRes :=
  match src with
  | .nilInterface => .err "Source struct passed in cannot be nil"
  | .byPtr none =>
    match mappings with
    | [] => .ok []
    | _ :: _ => .panicked "reflect: call of reflect.Value.Field on zero Value"
  | .byPtr (some r) | .byValue r =>
    match eWriteRow codecs mappings r with
    | .error e => .err e
    | .ok row => .ok row

/-- The Go zero value of the field described by `m`. -/
def zeroValueOf (m : csvField) : Value :=
  match m.fieldType with
  | .kstring => .vStr ""
  | .kint => .vInt 0
  | .kbool => .vBool false
  | .kslice => match m.sliceType with
    | .kint => .vInts []
    | _ => .vStrs []
  | .invalid => .vOpaque ""

/-- A freshly allocated destination struct: every field at its zero value
(for a schema whose `fieldIndex` is its position). -/
def zeroRecord (mappings : List csvField) : Record :=
  mappings.map zeroValueOf

/-! ## Reconciliation lemmas -/

/-- If a predicate holds for exactly one element of a list, `find?` finds it. -/
theorem find?_eq_some_of_unique {α : Type} {p : α → Bool} {l : List α} {a : α}
    (ha : a ∈ l) (hpa : p a = true) (huniq : ∀ b ∈ l, p b = true → b = a) :
    l.find? p = some a := by
  induction l with
  | nil => simp at ha
  | cons x xs ih =>
    rcases List.mem_cons.mp ha with rfl | hmem
    · simp [List.find?_cons, hpa]
    · cases hx : p x with
      | true =>
        have hxa : x = a := huniq x (by simp) hx
        subst hxa
        simp [List.find?_cons, hx]
      | false =>
        simp only [List.find?_cons, hx]
        exact ih hmem (fun b hb hpb => huniq b (List.mem_cons_of_mem _ hb) hpb)

/-- The slot computed for a (normalized) header cell is the LAST field of
the schema whose normalized name matches, i.e. the first match in the
reversed declaration order — the Go zero `csvField` when none matches. -/
theorem slotFor_eq (mappings : List csvField) (h : String) :
    slotFor mappings h =
      (mappings.reverse.find? (fun f => normalizeHeader f.fieldName == h)).getD default := by
  suffices H : ∀ acc, mappings.foldl
      (fun a f => if h = normalizeHeader f.fieldName then f else a) acc
      = (mappings.reverse.find? (fun f => normalizeHeader f.fieldName == h)).getD acc from
    H default
  induction mappings with
  | nil => intro acc; rfl
  | cons m ms ih =>
    intro acc
    rw [List.foldl_cons, ih, List.reverse_cons, List.find?_append]
    rcases hf : ms.reverse.find? (fun f => normalizeHeader f.fieldName == h) with _ | f
    · rw [hf]
      by_cases hm : h = normalizeHeader m.fieldName
      · have hp : (normalizeHeader m.fieldName == h) = true := by simp [hm]
        simp [Option.or, List.find?_cons, hp, if_pos hm]
      · have hp : (normalizeHeader m.fieldName == h) = false := by
          simp only [beq_eq_false_iff_ne, ne_eq]
          exact fun e => hm e.symm
        simp [Option.or, List.find?_cons, hp, if_neg hm]
    · rw [hf]
      simp [Option.or]

/-- A header list containing two cells with the same normalization (or a
cell whose normalization was already seen) makes the header loop fail with
the duplicate-header error, reporting the normalization of one of the
cells. -/
theorem reconcileAux_error_of_dup (mappings : List csvField) :
    ∀ (headers seen : List String),
      (¬ (headers.map normalizeHeader).Nodup ∨ ∃ h ∈ headers, normalizeHeader h ∈ seen) →
      ∃ raw ∈ headers, reconcileAux mappings seen headers =
        .error ("saw header column '" ++ normalizeHeader raw
          ++ "' twice, CSV headers must be unique")
  | [], seen, hdup => by
    rcases hdup with hnd | ⟨h, hh, _⟩
    · exact absurd (by simp) hnd
    · simp at hh
  | h :: rest, seen, hdup => by
    cases hseen : seen.contains (normalizeHeader h) with
    | true =>
      exact ⟨h, List.mem_cons_self _ _, by
        simp only [reconcileAux]
        rw [hseen]
        simp⟩
    | false =>
      have hseen' : normalizeHeader h ∉ seen := by simpa using hseen
      have hrec : ¬ (rest.map normalizeHeader).Nodup ∨
          ∃ h' ∈ rest, normalizeHeader h' ∈ normalizeHeader h :: seen := by
        rcases hdup with hnd | ⟨h', hh', hin⟩
        · rw [List.map_cons, List.nodup_cons] at hnd
          by_cases hmem : normalizeHeader h ∈ rest.map normalizeHeader
          · obtain ⟨h', hh', heq⟩ := List.mem_map.mp hmem
            exact Or.inr ⟨h', hh', by simp [heq]⟩
          · exact Or.inl (fun hn => hnd ⟨hmem, hn⟩)
        · rcases List.mem_cons.mp hh' with rfl | hmem
          · exact absurd hin hseen'
          · exact Or.inr ⟨h', hmem, List.mem_cons_of_mem _ hin⟩
      obtain ⟨raw, hrmem, hre⟩ :=
        reconcileAux_error_of_dup mappings rest (normalizeHeader h :: seen) hrec
      exact ⟨raw, List.mem_cons_of_mem _ hrmem, by
        simp only [reconcileAux]
        rw [hseen]
        simp [hre]⟩

/-- A successful header loop produces exactly one slot per header cell,
each computed by `slotFor` on the normalized cell. -/
theorem reconcileAux_ok (mappings : List csvField) :
    ∀ (headers seen : List String) (sorted : List csvField),
      reconcileAux mappings seen headers = .ok sorted →
      sorted = headers.map (fun h => slotFor mappings (normalizeHeader h))
  | [], seen, sorted, hok => by
    simp only [reconcileAux] at hok
    cases hok
    rfl
  | h :: rest, seen, sorted, hok => by
    cases hseen : seen.contains (normalizeHeader h) with
    | true =>
      simp only [reconcileAux] at hok
      rw [hseen] at hok
      simp at hok
    | false =>
      rcases hrec : reconcileAux mappings (normalizeHeader h :: seen) rest with e | tl
      · simp only [reconcileAux] at hok
        rw [hseen] at hok
        simp [hrec] at hok
      · have htl := reconcileAux_ok mappings rest _ tl hrec
        simp only [reconcileAux] at hok
        rw [hseen] at hok
        simp only [Bool.false_eq_true, if_false, hrec] at hok
        cases hok
        simp [List.map_cons, htl]

/-- Successful construction decomposes into: audit passed, reconciliation
succeeded with the slots, required-columns check passed. -/
theorem newDecoder_ok (mappings : List csvField) (headers : List String)
    (rows : List (List String)) (d : DecoderM)
    (hok : newDecoder mappings headers rows = .ok d) :
    d = ⟨headers.map (fun h => slotFor mappings (normalizeHeader h)), headers.length, rows⟩ := by
  unfold newDecoder at hok
  rcases haudit : mappings.find? (fun m => m.fieldType == .invalid && !m.customUnmarshaler)
      with _ | m
  · rw [haudit] at hok
    rcases hrec : reconcileAux mappings [] headers with e | sorted
    · rw [hrec] at hok; cases hok
    · rw [hrec] at hok
      rcases hreq : checkRequired mappings headers with e | u
      · rw [hreq] at hok; cases hok
      · rw [hreq] at hok
        cases hok
        rw [reconcileAux_ok mappings headers [] sorted hrec]
  · rw [haudit] at hok; cases hok

/-! ## String and number lemmas -/

theorem data_asString (l : List Char) : l.asString.data = l := rfl

theorem asString_data (s : String) : s.data.asString = s := rfl

/-- `natDigitsF` does not depend on the fuel once the fuel covers `n`. -/
theorem natDigitsF_stable : ∀ (f1 n f2 : Nat), n ≤ f1 → n ≤ f2 →
    natDigitsF f1 n = natDigitsF f2 n
  | f1, 0, f2, _, _ => by cases f1 <;> cases f2 <;> rfl
  | 0, n + 1, _, h1, _ => by omega
  | _ + 1, n + 1, 0, _, h2 => by omega
  | f1 + 1, n + 1, f2 + 1, h1, h2 => by
    have hq : (n + 1) / 10 < n + 1 := Nat.div_lt_self (Nat.succ_pos n) (by norm_num)
    simp only [natDigitsF]
    rw [natDigitsF_stable f1 ((n + 1) / 10) f2 (by omega) (by omega)]

/-- The defining recurrence of `natDigits` on positive numbers. -/
theorem natDigits_succ (n : Nat) (h : 0 < n) :
    natDigits n = natDigits (n / 10) ++ [Char.ofNat (n % 10 + '0'.toNat)] := by
  obtain ⟨m, rfl⟩ : ∃ m, n = m + 1 := ⟨n - 1, by omega⟩
  have hdiv : (m + 1) / 10 < m + 1 := Nat.div_lt_self (Nat.succ_pos m) (by norm_num)
  unfold natDigits
  simp only [natDigitsF]
  rw [natDigitsF_stable m ((m + 1) / 10) ((m + 1) / 10) (by omega) (Nat.le_refl _)]

/-- A decimal digit character, as produced by `natDigits`. -/
def IsDigitChar (c : Char) : Prop :=
  ∃ d, d < 10 ∧ c = Char.ofNat (d + '0'.toNat)

theorem isDigitChar_facts (c : Char) (h : IsDigitChar c) :
    c.isDigit = true ∧ c.isWhitespace = false ∧ c ≠ ',' := by
  obtain ⟨d, hd, rfl⟩ := h
  interval_cases d <;> exact ⟨by decide, by decide, by decide⟩

theorem natOfDigits_append_single (xs : List Char) (c : Char) :
    natOfDigits (xs ++ [c]) = natOfDigits xs * 10 + (c.toNat - '0'.toNat) := by
  simp [natOfDigits, List.foldl_append]

theorem toNat_digitChar (d : Nat) (hd : d < 10) :
    (Char.ofNat (d + '0'.toNat)).toNat = d + '0'.toNat := by
  interval_cases d <;> decide

/-- `natDigits n` for positive `n` is a non-empty digit string whose
decimal value is `n`. -/
theorem natDigits_spec (n : Nat) (h : 0 < n) :
    natDigits n ≠ [] ∧ (∀ c ∈ natDigits n, IsDigitChar c) ∧
      natOfDigits (natDigits n) = n := by
  induction n using Nat.strong_induction_on with
  | _ n ih =>
    rw [natDigits_succ n h]
    by_cases hten : n < 10
    · have hnd : n / 10 = 0 := Nat.div_eq_of_lt hten
      have h0 : natDigits 0 = [] := rfl
      rw [hnd, h0]
      refine ⟨by simp, ?_, ?_⟩
      · intro c hc
        rw [List.nil_append, List.mem_singleton] at hc
        exact ⟨n % 10, Nat.mod_lt _ (by norm_num), hc⟩
      · rw [List.nil_append]
        show natOfDigits ([] ++ [_]) = n
        rw [natOfDigits_append_single, toNat_digitChar (n % 10) (Nat.mod_lt _ (by norm_num))]
        have : natOfDigits [] = 0 := rfl
        rw [this]
        omega
    · have hq : 0 < n / 10 := Nat.div_pos (by omega) (by norm_num)
      have hlt : n / 10 < n := Nat.div_lt_self h (by norm_num)
      obtain ⟨hne, hdig, hval⟩ := ih (n / 10) hlt hq
      refine ⟨by simp, ?_, ?_⟩
      · intro c hc
        rcases List.mem_append.mp hc with hc | hc
        · exact hdig c hc
        · rw [List.mem_singleton] at hc
          exact ⟨n % 10, Nat.mod_lt _ (by norm_num), hc⟩
      · rw [natOfDigits_append_single, hval,
          toNat_digitChar (n % 10) (Nat.mod_lt _ (by norm_num))]
        omega

/-- `strconv.Atoi` on a bare non-empty digit string. -/
theorem atoi_of_digits (s : List Char) (hne : s ≠ []) (hd : ∀ c ∈ s, IsDigitChar c) :
    atoi s.asString = .ok (natOfDigits s) := by
  cases s with
  | nil => exact absurd rfl hne
  | cons c rest =>
    have hc := isDigitChar_facts c (hd c (List.mem_cons_self _ _))
    have hminus : ¬ c = '-' := by
      intro hh
      rw [hh] at hc
      simp at hc
    have hplus : ¬ c = '+' := by
      intro hh
      rw [hh] at hc
      simp at hc
    have hall : (c :: rest).all Char.isDigit = true := by
      rw [List.all_eq_true]
      intro x hx
      exact (isDigitChar_facts x (hd x hx)).1
    have hsign : ¬(c = '-' ∨ c = '+') := by
      push_neg
      exact ⟨hminus, hplus⟩
    unfold atoi
    rw [data_asString]
    simp only [List.headI, if_neg hsign]
    rw [if_pos ⟨List.cons_ne_nil c rest, hall⟩, if_neg hminus]
    simp

/-- `strconv.Atoi` on `-` followed by a non-empty digit string. -/
theorem atoi_neg_digits (s : List Char) (hne : s ≠ []) (hd : ∀ c ∈ s, IsDigitChar c) :
    atoi ('-' :: s).asString = .ok (-(natOfDigits s : Int)) := by
  have hall : s.all Char.isDigit = true := by
    rw [List.all_eq_true]
    intro x hx
    exact (isDigitChar_facts x (hd x hx)).1
  unfold atoi
  rw [data_asString]
  simp only [List.headI, List.tail_cons, eq_self_iff_true, true_or, if_true]
  rw [if_pos ⟨hne, hall⟩]
  simp

/-- Strings are equal when their character lists are. -/
theorem string_ext {s t : String} (h : s.data = t.data) : s = t := by
  cases s
  cases t
  cases h
  rfl

/-- `strconv.Atoi` inverts `strconv.Itoa`. -/
theorem atoi_itoa (n : Int) : atoi (itoa n) = .ok n := by
  rcases lt_trichotomy n 0 with hneg | rfl | hpos
  · have hne : n ≠ 0 := by omega
    have habs : 0 < n.natAbs := by omega
    obtain ⟨hd1, hd2, hd3⟩ := natDigits_spec n.natAbs habs
    have hi : itoa n = ('-' :: natDigits n.natAbs).asString := by
      unfold itoa
      rw [if_neg hne, if_pos hneg]
      exact string_ext (by rw [String.data_append, data_asString, data_asString]; rfl)
    rw [hi, atoi_neg_digits _ hd1 hd2, hd3]
    congr 1
    omega
  · decide
  · have hne : n ≠ 0 := by omega
    have habs : 0 < n.natAbs := by omega
    obtain ⟨hd1, hd2, hd3⟩ := natDigits_spec n.natAbs habs
    have hi : itoa n = (natDigits n.natAbs).asString := by
      unfold itoa
      rw [if_neg hne, if_neg (by omega)]
    rw [hi, atoi_of_digits _ hd1 hd2, hd3]
    congr 1
    omega

/-- `dropWhile` is the identity on a list that satisfies the predicate
nowhere. -/
theorem dropWhile_eq_self_of_all {p : Char → Bool} (l : List Char)
    (h : ∀ c ∈ l, p c = false) : l.dropWhile p = l := by
  cases l with
  | nil => rfl
  | cons c t =>
    rw [List.dropWhile_cons, if_neg]
    simp [h c (List.mem_cons_self c t)]

/-- A string none of whose characters is whitespace is `TrimSpace`-invariant. -/
theorem trimSpace_eq_self (s : String) (h : ∀ c ∈ s.data, c.isWhitespace = false) :
    trimSpace s = s := by
  unfold trimSpace
  rw [dropWhile_eq_self_of_all s.data h,
    dropWhile_eq_self_of_all s.data.reverse (fun c hc => h c (List.mem_reverse.mp hc)),
    List.reverse_reverse, asString_data]

theorem splitCommaChars_ne_nil : ∀ (l : List Char), splitCommaChars l ≠ []
  | [] => by simp [splitCommaChars]
  | c :: rest => by
    simp only [splitCommaChars]
    split
    · simp
    · rcases h : splitCommaChars rest with _ | ⟨p, ps⟩ <;> simp

/-- Splitting a comma-free character list yields that single part. -/
theorem splitCommaChars_no_comma : ∀ (l : List Char), ',' ∉ l → splitCommaChars l = [l]
  | [], _ => rfl
  | c :: rest, h => by
    have hc : ¬ c = ',' := fun hh => h (hh ▸ List.mem_cons_self _ _)
    have hrest := splitCommaChars_no_comma rest (fun hh => h (List.mem_cons_of_mem _ hh))
    simp only [splitCommaChars, if_neg hc, hrest]

/-- Splitting a comma-free part, a comma, then anything: the part comes
off whole. -/
theorem splitCommaChars_append : ∀ (p l : List Char), ',' ∉ p →
    splitCommaChars (p ++ ',' :: l) = p :: splitCommaChars l
  | [], l, _ => by simp [splitCommaChars]
  | c :: p, l, h => by
    have hc : ¬ c = ',' := fun hh => h (hh ▸ List.mem_cons_self _ _)
    have hp := splitCommaChars_append p l (fun hh => h (List.mem_cons_of_mem _ hh))
    simp only [List.cons_append, splitCommaChars, if_neg hc, List.append_eq, hp]

/-- `Split` inverts `Join` on a non-empty list of comma-free parts
(character level). -/
theorem splitCommaChars_joinCommaChars : ∀ (parts : List (List Char)),
    parts ≠ [] → (∀ p ∈ parts, ',' ∉ p) →
    splitCommaChars (joinCommaChars parts) = parts
  | [], hne, _ => absurd rfl hne
  | [p], _, h => by
    simp only [joinCommaChars]
    exact splitCommaChars_no_comma p (h p (List.mem_singleton.mpr rfl))
  | p :: q :: rest, _, h => by
    have hp : ',' ∉ p := h p (List.mem_cons_self _ _)
    have hrest := splitCommaChars_joinCommaChars (q :: rest) (by simp)
      (fun x hx => h x (List.mem_cons_of_mem _ hx))
    simp only [joinCommaChars, splitCommaChars_append _ _ hp, hrest]

/-- `strings.Split` on `","` inverts `strings.Join` on a non-empty list of
comma-free strings. -/
theorem splitComma_joinComma (parts : List String) (hne : parts ≠ [])
    (h : ∀ p ∈ parts, ',' ∉ p.data) :
    splitComma (joinComma parts) = parts := by
  unfold splitComma joinComma
  rw [data_asString, splitCommaChars_joinCommaChars (parts.map String.data)
    (by simpa using hne)
    (by
      intro p hp
      obtain ⟨q, hq, rfl⟩ := List.mem_map.mp hp
      exact h q hq)]
  rw [List.map_map]
  conv_rhs => rw [← List.map_id parts]
  exact List.map_congr_left (fun p _ => asString_data p)

/-- `Join` of a non-empty list of non-empty parts is non-empty. -/
theorem joinComma_ne_empty (parts : List String) (hne : parts ≠ [])
    (hh : ∀ p ∈ parts, p ≠ "") : joinComma parts ≠ "" := by
  intro hcon
  have hdata := congrArg String.data hcon
  unfold joinComma at hdata
  rw [data_asString] at hdata
  cases parts with
  | nil => exact hne rfl
  | cons x rest =>
    cases rest with
    | nil =>
      simp only [List.map_cons, List.map_nil, joinCommaChars] at hdata
      exact hh x (List.mem_cons_self _ _) (string_ext hdata)
    | cons y t =>
      simp only [List.map_cons, joinCommaChars] at hdata
      rcases hx : x.data with _ | ⟨c, cs⟩
      · rw [hx] at hdata
        simp at hdata
      · rw [hx] at hdata
        simp at hdata

/-- membership in a `Join`: every character is a comma or comes from one of
the parts. -/
theorem mem_joinCommaChars : ∀ (parts : List (List Char)) (c : Char),
    c ∈ joinCommaChars parts → c = ',' ∨ ∃ p ∈ parts, c ∈ p
  | [], c, h => by simp [joinCommaChars] at h
  | [p], c, h => by
    simp only [joinCommaChars] at h
    exact Or.inr ⟨p, List.mem_singleton.mpr rfl, h⟩
  | p :: q :: rest, c, h => by
    simp only [joinCommaChars, List.mem_append, List.mem_cons] at h
    rcases h with h | h | h
    · exact Or.inr ⟨p, List.mem_cons_self _ _, h⟩
    · exact Or.inl h
    · rcases mem_joinCommaChars (q :: rest) c h with h' | ⟨p', hp', hc'⟩
      · exact Or.inl h'
      · exact Or.inr ⟨p', List.mem_cons_of_mem _ hp', hc'⟩

/-- `strconv.FormatBool` round-trips through `strconv.ParseBool`. -/
theorem parseBool_formatBool (b : Bool) : parseBool (formatBool b) = some b := by
  cases b <;> decide

/-- Every character of `itoa n` is a digit or the leading minus sign; in
particular none is whitespace or a comma, and the string is non-empty. -/
theorem itoa_chars (n : Int) :
    itoa n ≠ "" ∧ ∀ c ∈ (itoa n).data, c.isWhitespace = false ∧ c ≠ ',' := by
  rcases lt_trichotomy n 0 with hneg | rfl | hpos
  · have hne : n ≠ 0 := by omega
    have habs : 0 < n.natAbs := by omega
    obtain ⟨hd1, hd2, _⟩ := natDigits_spec n.natAbs habs
    have hi : itoa n = ('-' :: natDigits n.natAbs).asString := by
      unfold itoa
      rw [if_neg hne, if_pos hneg]
      apply String.ext
      rw [String.data_append, data_asString, data_asString]
      rfl
    rw [hi]
    constructor
    · intro hcon
      have hdata := congrArg String.data hcon
      rw [data_asString] at hdata
      exact List.cons_ne_nil _ _ hdata
    · intro c hc
      rw [data_asString] at hc
      rcases List.mem_cons.mp hc with rfl | hc
      · exact ⟨by decide, by decide⟩
      · have := isDigitChar_facts c (hd2 c hc)
        exact ⟨this.2.1, this.2.2⟩
  · exact ⟨by decide, by decide⟩
  · have hne : n ≠ 0 := by omega
    have habs : 0 < n.natAbs := by omega
    obtain ⟨hd1, hd2, _⟩ := natDigits_spec n.natAbs habs
    have hi : itoa n = (natDigits n.natAbs).asString := by
      unfold itoa
      rw [if_neg hne, if_neg (by omega)]
    rw [hi]
    constructor
    · intro hcon
      have := congrArg String.data hcon
      rw [data_asString] at this
      exact hd1 this
    · intro c hc
      rw [data_asString] at hc
      have := isDigitChar_facts c (hd2 c hc)
      exact ⟨this.2.1, this.2.2⟩

/-! ## Row-codec lemmas -/

/-- A `set` step only happens for a mapped (non-empty-name) slot. -/
theorem decodeCell_set_name (codecs : Codecs) (m : csvField) (s : String) (v : Value)
    (h : decodeCell codecs m s = .set v) : m.fieldName ≠ "" := by
  intro hname
  simp [decodeCell, hname] at h

/-- Splitting the per-row loop at a cell boundary: process the prefix; on a
prefix error stop there, otherwise continue with the suffix from the
prefix's record state. -/
theorem decodeCells_append (codecs : Codecs) :
    ∀ (ms1 : List csvField) (cs1 : List String) (ms2 : List csvField) (cs2 : List String)
      (r : Record), ms1.length = cs1.length →
      decodeCells codecs (ms1 ++ ms2) (cs1 ++ cs2) r =
        (match decodeCells codecs ms1 cs1 r with
         | (r1, none) => decodeCells codecs ms2 cs2 r1
         | (r1, some e) => (r1, some e))
  | [], [], ms2, cs2, r, _ => by cases hd : decodeCells codecs ms2 cs2 r <;> rfl
  | [], _ :: _, _, _, _, hlen => by simp at hlen
  | _ :: _, [], _, _, _, hlen => by simp at hlen
  | m :: ms1, c :: cs1, ms2, cs2, r, hlen => by
    have hlen' : ms1.length = cs1.length := by simpa using hlen
    simp only [List.cons_append, decodeCells]
    cases decodeCell codecs m c with
    | skip => exact decodeCells_append codecs ms1 cs1 ms2 cs2 r hlen'
    | set v => exact decodeCells_append codecs ms1 cs1 ms2 cs2 _ hlen'
    | fail e => rfl

/-- Frame property of the per-row loop: a struct position that is not the
`fieldIndex` of any mapped slot is never written. -/
theorem decodeCells_writes_only (codecs : Codecs) :
    ∀ (ms : List csvField) (cs : List String) (r : Record) (j : Nat),
      j ∉ (ms.filter (fun g => g.fieldName != "")).map (fun g => g.fieldIndex) →
      ((decodeCells codecs ms cs r).1)[j]? = r[j]?
  | ms, [], r, j, _ => by cases ms <;> rfl
  | [], _ :: _, r, j, _ => rfl
  | m :: ms, c :: cs, r, j, hj => by
    have hj' : j ∉ (ms.filter (fun g => g.fieldName != "")).map (fun g => g.fieldIndex) := by
      intro hmem
      apply hj
      rw [List.filter_cons]
      split
      · exact List.mem_map.mpr (by
          obtain ⟨g, hg, hgi⟩ := List.mem_map.mp hmem
          exact ⟨g, List.mem_cons_of_mem _ hg, hgi⟩)
      · exact hmem
    simp only [decodeCells]
    cases hstep : decodeCell codecs m c with
    | skip => exact decodeCells_writes_only codecs ms cs r j hj'
    | fail e => rfl
    | set v =>
      have hname : m.fieldName ≠ "" := decodeCell_set_name codecs m c v hstep
      have hjm : j ≠ m.fieldIndex := by
        intro hji
        apply hj
        rw [List.filter_cons, if_pos (by simpa using hname)]
        exact List.mem_map.mpr ⟨m, List.mem_cons_self _ _, hji.symm⟩
      rw [decodeCells_writes_only codecs ms cs _ j hj']
      exact List.getElem?_set_ne (fun h => hjm h.symm)

/-- A failing per-row loop splits at the failing cell: the prefix before it
decodes cleanly producing exactly the returned (partially mutated) record,
and the loop restarted at the failing cell from that record immediately
returns the same record and error. -/
theorem decodeCells_error_split (codecs : Codecs) :
    ∀ (ms : List csvField) (cs : List String) (r r' : Record) (e : String),
      ms.length = cs.length →
      decodeCells codecs ms cs r = (r', some e) →
      ∃ k, k < ms.length ∧
        decodeCells codecs (ms.take k) (cs.take k) r = (r', none) ∧
        decodeCells codecs (ms.drop k) (cs.drop k) r' = (r', some e)
  | [], [], r, r', e, _, h => by simp [decodeCells] at h
  | [], _ :: _, _, _, _, hlen, _ => by simp at hlen
  | _ :: _, [], _, _, _, hlen, _ => by simp at hlen
  | m :: ms, c :: cs, r, r', e, hlen, h => by
    have hlen' : ms.length = cs.length := by simpa using hlen
    simp only [decodeCells] at h
    cases hstep : decodeCell codecs m c with
    | fail e0 =>
      rw [hstep] at h
      obtain ⟨hr, he⟩ := Prod.mk.injEq .. ▸ h
      cases Option.some.injEq .. ▸ he
      refine ⟨0, by simp, ?_, ?_⟩
      · rw [← hr]; rfl
      · simp only [List.drop_zero, decodeCells, hstep, hr, he]
    | skip =>
      rw [hstep] at h
      obtain ⟨k, hk, h1, h2⟩ := decodeCells_error_split codecs ms cs r r' e hlen' h
      refine ⟨k + 1, by simpa using hk, ?_, ?_⟩
      · simp only [List.take_succ_cons, decodeCells, hstep, h1]
      · simpa only [List.drop_succ_cons] using h2
    | set v =>
      rw [hstep] at h
      obtain ⟨k, hk, h1, h2⟩ :=
        decodeCells_error_split codecs ms cs (setField r m.fieldIndex v) r' e hlen' h
      refine ⟨k + 1, by simpa using hk, ?_, ?_⟩
      · simp only [List.take_succ_cons, decodeCells, hstep, h1]
      · simpa only [List.drop_succ_cons] using h2

/-- The loop body on a mapped slot whose trimmed cell is empty: fail for a
required field, silently `continue` otherwise — no type coercion path is
entered. -/
theorem decodeCell_empty (codecs : Codecs) (m : csvField) (s : String)
    (hname : m.fieldName ≠ "") (hempty : trimSpace s = "") :
    decodeCell codecs m s =
      if m.required then
        .fail ("column " ++ m.fieldName ++ " required but no value found")
      else .skip := by
  simp [decodeCell, hname, hempty]

/-! ## Round-trip machinery -/

/-- The element loop of the list-of-integer branch accepts every rendered
integer list. -/
theorem parseIntsAux_map_itoa (name : String) :
    ∀ (l : List Int) (i : Nat), parseIntsAux name i (l.map itoa) = .ok l
  | [], _ => rfl
  | n :: rest, i => by
    simp only [List.map_cons, parseIntsAux, atoi_itoa,
      parseIntsAux_map_itoa name rest (i + 1)]

/-- The conditions under which one field value survives the encode/decode
round trip.  A custom-codec field needs a faithful codec producing
non-empty, trim-invariant text; a plain field needs its value to match the
declared kind and to avoid what `Decoder.Read` destroys: surrounding
whitespace (trimmed away), an empty required cell (an error), and commas
inside list elements (the comma is the element separator). -/
def GoodValue (codecs : Codecs) (m : csvField) (v : Value) : Prop :=
  if m.customMarshaler = true then
    m.customUnmarshaler = true ∧
    ∃ payload out, v = .vOpaque payload ∧
      (codecs m.fieldIndex).marshal payload = .ok out ∧
      trimSpace out = out ∧ out ≠ "" ∧
      (codecs m.fieldIndex).unmarshal out = .ok payload
  else
    m.customUnmarshaler = false ∧
    match m.fieldType, v with
    | .kstring, .vStr s => trimSpace s = s ∧ (s = "" → m.required = false)
    | .kint, .vInt _ => True
    | .kbool, .vBool _ => True
    | .kslice, .vStrs l =>
        m.sliceType = .kstring ∧ (∀ p ∈ l, ',' ∉ p.data) ∧
        trimSpace (joinComma l) = joinComma l ∧
        (joinComma l = "" → l = [] ∧ m.required = false)
    | .kslice, .vInts l => m.sliceType = .kint ∧ (l = [] → m.required = false)
    | _, _ => False

/-- One field's round trip: encoding a good value yields a cell that either
is empty — then the value was the field's zero value, the field is not
required, and decoding skips the cell — or decodes back to exactly the
original value. -/
theorem field_roundtrip (codecs : Codecs) (m : csvField) (v : Value)
    (hname : m.fieldName ≠ "") (hgood : GoodValue codecs m v) :
    ∃ cell, encodeField codecs m v = .ok cell ∧
      ((cell = "" ∧ v = zeroValueOf m ∧ decodeCell codecs m cell = .skip) ∨
        decodeCell codecs m cell = .set v) := by
  unfold GoodValue at hgood
  by_cases hcm : m.customMarshaler = true
  · rw [if_pos hcm] at hgood
    obtain ⟨hum, payload, out, rfl, hmar, htrim, hne, hunmar⟩ := hgood
    refine ⟨out, ?_, Or.inr ?_⟩
    · simp only [encodeField, hcm, if_true, hmar]
    · simp only [decodeCell, htrim, if_neg hname, if_neg hne, hum, if_true, hunmar]
  · rw [if_neg hcm] at hgood
    obtain ⟨hum, hv⟩ := hgood
    have hcm' : m.customMarshaler = false := by
      cases hmm : m.customMarshaler
      · rfl
      · exact absurd hmm hcm
    rcases hty : m.fieldType with _ | _ | _ | _ | _ <;> rw [hty] at hv <;>
      rcases v with s | n | b | l | l | p <;> try exact hv.elim
    · -- kstring, vStr s
      obtain ⟨htrim, hreq⟩ := hv
      refine ⟨s, ?_, ?_⟩
      · simp only [encodeField, hcm', Bool.false_eq_true, if_false, hty]
      · by_cases hse : s = ""
        · subst hse
          refine Or.inl ⟨rfl, ?_, ?_⟩
          · simp [zeroValueOf, hty]
          · simp only [decodeCell, if_neg hname]
            have : trimSpace "" = "" := rfl
            rw [this, if_pos rfl, hreq rfl]
            simp
        · refine Or.inr ?_
          simp only [decodeCell, htrim, if_neg hname, if_neg hse, hum,
            Bool.false_eq_true, if_false, hty]
    · -- kint, vInt n
      have hchars := itoa_chars n
      have htrim : trimSpace (itoa n) = itoa n :=
        trimSpace_eq_self _ (fun c hc => (hchars.2 c hc).1)
      refine ⟨itoa n, ?_, Or.inr ?_⟩
      · simp only [encodeField, hcm', Bool.false_eq_true, if_false, hty]
      · simp only [decodeCell, htrim, if_neg hname, if_neg hchars.1, hum,
          Bool.false_eq_true, if_false, hty, atoi_itoa]
    · -- kbool, vBool b
      have htrim : trimSpace (formatBool b) = formatBool b := by cases b <;> decide
      have hne : formatBool b ≠ "" := by cases b <;> decide
      refine ⟨formatBool b, ?_, Or.inr ?_⟩
      · simp only [encodeField, hcm', Bool.false_eq_true, if_false, hty]
      · simp only [decodeCell, htrim, if_neg hname, if_neg hne, hum,
          Bool.false_eq_true, if_false, hty, parseBool_formatBool]
    · -- kslice + sliceType kstring, vStrs l
      obtain ⟨hsl, hcf, htrim, hempty⟩ := hv
      refine ⟨joinComma l, ?_, ?_⟩
      · simp only [encodeField, hcm', Bool.false_eq_true, if_false, hty, hsl]
      · by_cases hje : joinComma l = ""
        · obtain ⟨hl, hreq⟩ := hempty hje
          subst hl
          refine Or.inl ⟨hje, ?_, ?_⟩
          · simp [zeroValueOf, hty, hsl]
          · simp only [decodeCell, if_neg hname, hje]
            have : trimSpace "" = "" := rfl
            rw [this, if_pos rfl, hreq]
            simp
        · have hlne : l ≠ [] := by
            intro hl
            subst hl
            exact hje rfl
          refine Or.inr ?_
          simp only [decodeCell, htrim, if_neg hname, if_neg hje, hum,
            Bool.false_eq_true, if_false, hty, hsl,
            splitComma_joinComma l hlne hcf]
    · -- kslice + sliceType kint, vInts l
      obtain ⟨hsl, hempty⟩ := hv
      refine ⟨joinComma (l.map itoa), ?_, ?_⟩
      · simp only [encodeField, hcm', Bool.false_eq_true, if_false, hty, hsl]
      · rcases hl : l with _ | ⟨x, rest⟩
        · subst hl
          refine Or.inl ⟨rfl, ?_, ?_⟩
          · simp [zeroValueOf, hty, hsl]
          · simp only [List.map_nil]
            simp only [decodeCell, if_neg hname]
            have htr : trimSpace (joinComma []) = "" := rfl
            rw [htr, if_pos rfl, hempty rfl]
            simp
        · subst hl
          have hne : joinComma ((x :: rest).map itoa) ≠ "" :=
            joinComma_ne_empty _ (by simp)
              (fun p hp => by
                obtain ⟨q, _, rfl⟩ := List.mem_map.mp hp
                exact (itoa_chars q).1)
          have htrim : trimSpace (joinComma ((x :: rest).map itoa)) =
              joinComma ((x :: rest).map itoa) := by
            apply trimSpace_eq_self
            intro c hc
            unfold joinComma at hc
            rw [data_asString] at hc
            rcases mem_joinCommaChars _ c hc with rfl | ⟨pd, hpd, hcp⟩
            · decide
            · rw [List.map_map] at hpd
              obtain ⟨q, _, rfl⟩ := List.mem_map.mp hpd
              exact ((itoa_chars q).2 c hcp).1
          have hsplit : splitComma (joinComma ((x :: rest).map itoa)) =
              (x :: rest).map itoa :=
            splitComma_joinComma _ (by simp)
              (fun p hp => by
                obtain ⟨q, _, rfl⟩ := List.mem_map.mp hp
                exact fun hc => ((itoa_chars q).2 ',' hc).2 rfl)
          refine Or.inr ?_
          simp only [decodeCell, htrim, if_neg hname, if_neg hne, hum,
            Bool.false_eq_true, if_false, hty, hsl, hsplit,
            parseIntsAux_map_itoa]

/-- With pairwise-distinct normalized field names, the slot computed for a
field's own normalized name is that field. -/
theorem slotFor_self (mappings : List csvField) (m : csvField) (hm : m ∈ mappings)
    (hnodup : (mappings.map (fun g => normalizeHeader g.fieldName)).Nodup) :
    slotFor mappings (normalizeHeader m.fieldName) = m := by
  rw [slotFor_eq]
  have hfind : mappings.reverse.find?
      (fun g => normalizeHeader g.fieldName == normalizeHeader m.fieldName) = some m := by
    apply find?_eq_some_of_unique (List.mem_reverse.mpr hm) (by simp)
    intro b hb hpb
    exact List.inj_on_of_nodup_map hnodup (List.mem_reverse.mp hb) hm (beq_iff_eq.mp hpb)
  rw [hfind]
  rfl

/-- The header loop succeeds when the normalized headers are pairwise
distinct and fresh with respect to `seen`. -/
theorem reconcileAux_ok_of_nodup (mappings : List csvField) :
    ∀ (headers seen : List String),
      (headers.map normalizeHeader).Nodup →
      (∀ h ∈ headers, normalizeHeader h ∉ seen) →
      reconcileAux mappings seen headers =
        .ok (headers.map (fun h => slotFor mappings (normalizeHeader h)))
  | [], _, _, _ => rfl
  | h :: rest, seen, hnodup, hseen => by
    have hncontains : seen.contains (normalizeHeader h) = false := by
      simpa using hseen h (List.mem_cons_self _ _)
    rw [List.map_cons, List.nodup_cons] at hnodup
    have hrec := reconcileAux_ok_of_nodup mappings rest (normalizeHeader h :: seen) hnodup.2
      (fun h' hh' => by
        intro hmem
        rcases List.mem_cons.mp hmem with heq | hmem'
        · exact hnodup.1 (heq ▸ List.mem_map.mpr ⟨h', hh', rfl⟩)
        · exact hseen h' (List.mem_cons_of_mem _ hh') hmem')
    simp only [reconcileAux]
    rw [hncontains]
    simp only [Bool.false_eq_true, if_false, hrec, List.map_cons]

/-- Constructing a decoder against the headers the encoder would write
(the schema's own field names, in order) succeeds and reconciles to the
identity mapping, provided the audit passes and normalized field names are
pairwise distinct. -/
theorem newDecoder_identity (mappings : List csvField) (rows : List (List String))
    (haudit : ∀ m ∈ mappings, m.fieldType = .invalid → m.customUnmarshaler = true)
    (hnodup : (mappings.map (fun g => normalizeHeader g.fieldName)).Nodup) :
    newDecoder mappings (mappings.map (fun m => m.fieldName)) rows =
      .ok ⟨mappings, mappings.length, rows⟩ := by
  have h1 : mappings.find? (fun m => m.fieldType == .invalid && !m.customUnmarshaler)
      = none := by
    rw [List.find?_eq_none]
    intro m hm
    simp only [Bool.and_eq_true, beq_iff_eq, Bool.not_eq_true', not_and]
    intro hinv
    rw [haudit m hm hinv]
    simp
  have h2 := reconcileAux_ok_of_nodup mappings (mappings.map (fun m => m.fieldName)) []
    (by
      rw [List.map_map]
      simpa [Function.comp] using hnodup)
    (fun h _ => List.not_mem_nil _)
  have h3 : mappings.find? (fun f => f.required &&
      !(((mappings.map (fun m => m.fieldName)).map normalizeHeader).contains
        (normalizeHeader f.fieldName))) = none := by
    rw [List.find?_eq_none]
    intro f hf
    have hmem : normalizeHeader f.fieldName ∈
        (mappings.map (fun m => m.fieldName)).map normalizeHeader := by
      rw [List.map_map]
      exact List.mem_map.mpr ⟨f, hf, rfl⟩
    simp only [Bool.and_eq_true, Bool.not_eq_true', not_and]
    intro _
    simp only [List.contains_eq_any_beq]
    intro hany
    rw [List.any_eq_false] at hany
    exact hany (normalizeHeader f.fieldName) hmem (by simp)
  have h4 : (mappings.map (fun m => m.fieldName)).map
      (fun h => slotFor mappings (normalizeHeader h)) = mappings := by
    rw [List.map_map]
    conv_rhs => rw [← List.map_id mappings]
    exact List.map_congr_left (fun m hm => slotFor_self mappings m hm hnodup)
  unfold newDecoder
  rw [h1, h2]
  unfold checkRequired
  rw [h3, h4, List.length_map]

/-- The lockstep encode-then-decode induction: encoding the schema suffix
`ms` (whose `fieldIndex` runs from `i0`) out of `src` succeeds, and
decoding the produced cells into any sufficiently long record `r` writes
exactly the encoded positions — each either receiving its `src` value or
being skipped because the value was the zero value of a non-required
field. -/
theorem roundtrip_core (codecs : Codecs) (src : Record) :
    ∀ (ms : List csvField) (i0 : Nat) (r : Record),
      (∀ k, k < ms.length → (ms.getD k default).fieldIndex = i0 + k) →
      (∀ k, k < ms.length → GoodValue codecs (ms.getD k default) (src.getD (i0 + k) default)) →
      (∀ m ∈ ms, m.fieldName ≠ "") →
      (∀ k, k < ms.length → i0 + k < r.length) →
      ∃ cells r',
        eWriteRow codecs ms src = .ok cells ∧
        cells.length = ms.length ∧
        decodeCells codecs ms cells r = (r', none) ∧
        (∀ k, k < ms.length →
          r'[i0 + k]? = some (src.getD (i0 + k) default) ∨
          (r'[i0 + k]? = r[i0 + k]? ∧
            src.getD (i0 + k) default = zeroValueOf (ms.getD k default))) ∧
        (∀ j, (∀ k, k < ms.length → j ≠ i0 + k) → r'[j]? = r[j]?)
  | [], i0, r, _, _, _, _ =>
    ⟨[], r, rfl, rfl, rfl, fun k hk => absurd hk (by simp), fun _ _ => rfl⟩
  | m :: ms, i0, r, hidx, hgood, hnames, hrlen => by
    have hidx0 : m.fieldIndex = i0 := by simpa using hidx 0 (by simp)
    have hgood0 : GoodValue codecs m (src.getD i0 default) := by
      simpa using hgood 0 (by simp)
    obtain ⟨cell, hcell, hcase⟩ :=
      field_roundtrip codecs m (src.getD i0 default)
        (hnames m (List.mem_cons_self _ _)) hgood0
    have hget : getField src m.fieldIndex = src.getD i0 default := by
      rw [hidx0]; rfl
    rcases hcase with ⟨hc0, hzero, hskip⟩ | hset
    · -- empty cell: the step skips and the field keeps its value
      obtain ⟨cells, r', h1, h2, h3, h4, h5⟩ :=
        roundtrip_core codecs src ms (i0 + 1) r
          (fun k hk => by
            have := hidx (k + 1) (by simpa using hk)
            simpa [Nat.add_assoc, Nat.add_comm 1 k] using this)
          (fun k hk => by
            have := hgood (k + 1) (by simpa using hk)
            simpa [Nat.add_assoc, Nat.add_comm 1 k] using this)
          (fun g hg => hnames g (List.mem_cons_of_mem _ hg))
          (fun k hk => by
            have := hrlen (k + 1) (by simpa using hk)
            simpa [Nat.add_assoc, Nat.add_comm 1 k] using this)
      refine ⟨cell :: cells, r', ?_, by simpa using h2, ?_, ?_, ?_⟩
      · simp only [eWriteRow, hget, hcell, h1]
      · simp only [decodeCells, hskip, h3]
      · intro k hk
        cases k with
        | zero =>
          refine Or.inr ⟨h5 i0 (fun k' hk' => by omega), by simpa using hzero⟩
        | succ k' =>
          have := h4 k' (by simpa using hk)
          simpa [Nat.add_assoc, Nat.add_comm 1 k'] using this
      · intro j hj
        exact h5 j (fun k hk => by
          have := hj (k + 1) (by simpa using hk)
          omega)
    · -- the step writes the field
      obtain ⟨cells, r', h1, h2, h3, h4, h5⟩ :=
        roundtrip_core codecs src ms (i0 + 1) (setField r i0 (src.getD i0 default))
          (fun k hk => by
            have := hidx (k + 1) (by simpa using hk)
            simpa [Nat.add_assoc, Nat.add_comm 1 k] using this)
          (fun k hk => by
            have := hgood (k + 1) (by simpa using hk)
            simpa [Nat.add_assoc, Nat.add_comm 1 k] using this)
          (fun g hg => hnames g (List.mem_cons_of_mem _ hg))
          (fun k hk => by
            have := hrlen (k + 1) (by simpa using hk)
            simpa [setField, Nat.add_assoc, Nat.add_comm 1 k] using this)
      refine ⟨cell :: cells, r', ?_, by simpa using h2, ?_, ?_, ?_⟩
      · simp only [eWriteRow, hget, hcell, h1]
      · simp only [decodeCells, hset, hidx0, h3]
      · intro k hk
        cases k with
        | zero =>
          refine Or.inl ?_
          have hj := h5 i0 (fun k' hk' => by omega)
          rw [Nat.add_zero, hj]
          exact List.getElem?_set_self (by simpa using hrlen 0 (by simp))
        | succ k' =>
          have hthis := h4 k' (by simpa using hk)
          have harith : i0 + 1 + k' = i0 + (k' + 1) := by omega
          rw [harith] at hthis
          rcases hthis with h | ⟨ha, hb⟩
          · exact Or.inl h
          · refine Or.inr ⟨?_, by simpa using hb⟩
            rw [ha]
            exact List.getElem?_set_ne (by omega)
      · intro j hj
        have hji : j ≠ i0 := by
          have := hj 0 (by simp)
          omega
        rw [h5 j (fun k hk => by
          have := hj (k + 1) (by simpa using hk)
          omega)]
        exact List.getElem?_set_ne (fun h => hji h.symm)

/-! # Claims -/

/-- **C1 counterexample.**  With a schema field `a` and the header row
`["A", " a "]`, both cells normalize to `a`, and construction fails — but
the message reports the NORMALIZED token `a`, not the raw cell `" a "` as
it appeared in the CSV, and reads "CSV headers must be unique", not
"headers must be unique".  So the claimed message, built from the raw
token, is not the message the code produces. -/
theorem C1_counterexample :
    newDecoder [{ fieldName := "a", fieldType := .kstring }] ["A", " a "] [] =
      .error "saw header column 'a' twice, CSV headers must be unique" ∧
    (Except.error "saw header column 'a' twice, CSV headers must be unique" ≠
      (.error "saw header column ' a ' twice, headers must be unique" :
        Except String DecoderM)) := by
  refine ⟨by decide, by decide⟩

/-- **C1 amended.**  If the header row contains two cells that normalize
identically (after trimming surrounding whitespace and lowercasing), and
the schema passes the unmarshaler audit that precedes header reading,
decoder construction fails with the error
`saw header column '<norm>' twice, CSV headers must be unique`, where the
header token reported is the NORMALIZED form of one of the header cells
(not the raw cell). -/
theorem C1_amended (mappings : List csvField) (headers : List String)
    (rows : List (List String))
    (haudit : mappings.find? (fun m => m.fieldType == .invalid && !m.customUnmarshaler) = none)
    (hdup : ¬ (headers.map normalizeHeader).Nodup) :
    ∃ raw ∈ headers, newDecoder mappings headers rows =
      .error ("saw header column '" ++ normalizeHeader raw
        ++ "' twice, CSV headers must be unique") := by
  obtain ⟨raw, hmem, hre⟩ := reconcileAux_error_of_dup mappings headers [] (Or.inl hdup)
  exact ⟨raw, hmem, by unfold newDecoder; rw [haudit, hre]⟩

/-- Witness for C1 amended at the concrete headers `["A", " a "]`. -/
theorem C1_amended_witness :
    ∃ raw ∈ (["A", " a "] : List String),
      newDecoder [{ fieldName := "a", fieldType := .kstring }] ["A", " a "] [] =
        .error ("saw header column '" ++ normalizeHeader raw
          ++ "' twice, CSV headers must be unique") :=
  C1_amended [{ fieldName := "a", fieldType := .kstring }] ["A", " a "] []
    (by decide) (by decide)

/-- **C2 counterexample.**  Schema derivation is case-sensitive, so two
fields named `Foo` and `foo` (which normalize identically) both derive.
Reconciling the header cell `foo` then assigns the LAST matching field
(`foo`, struct index 1), not the first one in declaration order (`Foo`,
struct index 0): the inner slotting loop has no break, so later matches
overwrite earlier ones. -/
theorem C2_counterexample :
    structureFromStruct
      [⟨"F1", "Foo", .kstring, .invalid, false, false⟩,
       ⟨"F2", "foo", .kint, .invalid, false, false⟩] =
      .ok [⟨false, "Foo", 0, .kstring, .invalid, false, false⟩,
           ⟨false, "foo", 1, .kint, .invalid, false, false⟩] ∧
    newDecoder
      [⟨false, "Foo", 0, .kstring, .invalid, false, false⟩,
       ⟨false, "foo", 1, .kint, .invalid, false, false⟩] ["foo"] [] =
      .ok ⟨[⟨false, "foo", 1, .kint, .invalid, false, false⟩], 1, []⟩ ∧
    (⟨false, "foo", 1, .kint, .invalid, false, false⟩ : csvField) ≠
      ⟨false, "Foo", 0, .kstring, .invalid, false, false⟩ := by
  refine ⟨by decide, by decide, by decide⟩

/-- **C2 amended.**  During header reconciliation, every header cell
position is assigned the LAST field descriptor, in schema declaration
order, whose normalized logical name equals the normalized header cell
(the first match in the reversed schema); a header with no match becomes
the zero slot (empty field name).  When two distinct field names normalize
to the same string — which derivation permits, its uniqueness check being
case-sensitive — the later field therefore wins. -/
theorem C2_amended (mappings : List csvField) (headers : List String)
    (rows : List (List String)) (d : DecoderM)
    (hok : newDecoder mappings headers rows = .ok d) :
    d.mappings = headers.map (fun h =>
      (mappings.reverse.find?
        (fun f => normalizeHeader f.fieldName == normalizeHeader h)).getD default) := by
  rw [newDecoder_ok mappings headers rows d hok]
  exact List.map_congr_left (fun h _ => slotFor_eq mappings (normalizeHeader h))

/-- Witness for C2 amended at the `Foo`/`foo` schema. -/
theorem C2_amended_witness :
    ([⟨false, "foo", 1, .kint, .invalid, false, false⟩] : List csvField) =
      (["foo"] : List String).map (fun h =>
        (([⟨false, "Foo", 0, .kstring, .invalid, false, false⟩,
           ⟨false, "foo", 1, .kint, .invalid, false, false⟩] : List csvField).reverse.find?
          (fun f => normalizeHeader f.fieldName == normalizeHeader h)).getD default) := by
  have := C2_amended
    [⟨false, "Foo", 0, .kstring, .invalid, false, false⟩,
     ⟨false, "foo", 1, .kint, .invalid, false, false⟩] ["foo"] []
    ⟨[⟨false, "foo", 1, .kint, .invalid, false, false⟩], 1, []⟩ (by decide)
  exact this

/-- **C7.**  Header reconciliation is case- and whitespace-insensitive:
for every schema field `f` and header cell `h` whose normalizations agree
(they differ only in surrounding whitespace and/or letter case), in any
successfully constructed decoder whose normalized field names are pairwise
distinct (so that `f` is identified by its name), the slot at `h`'s header
position holds exactly `f`. -/
theorem C7_case_whitespace_insensitive (mappings : List csvField)
    (headers : List String) (rows : List (List String)) (d : DecoderM)
    (f : csvField) (h : String) (i : Nat)
    (hok : newDecoder mappings headers rows = .ok d)
    (hi : headers[i]? = some h)
    (hf : f ∈ mappings)
    (huniq : (mappings.map (fun g => normalizeHeader g.fieldName)).Nodup)
    (hmatch : normalizeHeader h = normalizeHeader f.fieldName) :
    d.mappings[i]? = some f := by
  rw [newDecoder_ok mappings headers rows d hok]
  show (headers.map (fun h => slotFor mappings (normalizeHeader h)))[i]? = some f
  rw [List.getElem?_map, hi]
  show some (slotFor mappings (normalizeHeader h)) = some f
  rw [slotFor_eq]
  have hfind : mappings.reverse.find?
      (fun g => normalizeHeader g.fieldName == normalizeHeader h) = some f := by
    apply find?_eq_some_of_unique (List.mem_reverse.mpr hf)
    · simp [hmatch]
    · intro b hb hpb
      have hb' : b ∈ mappings := List.mem_reverse.mp hb
      have : normalizeHeader b.fieldName = normalizeHeader f.fieldName := by
        have := beq_iff_eq.mp hpb
        rw [this, hmatch]
      exact List.inj_on_of_nodup_map huniq hb' hf this
  rw [hfind]
  rfl

/-- Witness for C7 at the spec's example: the header cell `" Integer "`
(whitespace and case both differing) matched against a field declared
`integer`, in a concretely constructed decoder. -/
theorem C7_witness :
    (⟨[⟨false, "integer", 0, .kint, .invalid, false, false⟩], 1, []⟩ : DecoderM).mappings[0]?
      = some ⟨false, "integer", 0, .kint, .invalid, false, false⟩ :=
  C7_case_whitespace_insensitive
    [⟨false, "integer", 0, .kint, .invalid, false, false⟩] [" Integer "] []
    ⟨[⟨false, "integer", 0, .kint, .invalid, false, false⟩], 1, []⟩
    ⟨false, "integer", 0, .kint, .invalid, false, false⟩ " Integer " 0
    (by decide) (by decide) (by decide) (by decide) (by decide)

/-- **C5.**  For a data-row cell (at any position: after a cleanly decoded
prefix) whose trimmed value is empty and whose slot is mapped: if the
slot's field is required, the call fails with
`column <name> required but no value found` (the record as mutated so far
is what the destination holds); if it is not required, the loop continues
with the remaining cells without touching the field or attempting any type
coercion — in particular, when no other mapped slot shares the field's
struct position, the field still holds its pre-call (zero/default) value
when the call ends. -/
theorem C5_empty_value (codecs : Codecs) (ms1 ms2 : List csvField) (m : csvField)
    (cs1 cs2 : List String) (s : String) (r r1 : Record)
    (hlen : ms1.length = cs1.length)
    (hname : m.fieldName ≠ "")
    (hempty : trimSpace s = "")
    (hpre : decodeCells codecs ms1 cs1 r = (r1, none)) :
    (m.required = true →
       decodeCells codecs (ms1 ++ m :: ms2) (cs1 ++ s :: cs2) r =
         (r1, some ("column " ++ m.fieldName ++ " required but no value found"))) ∧
    (m.required = false →
       decodeCells codecs (ms1 ++ m :: ms2) (cs1 ++ s :: cs2) r =
         decodeCells codecs ms2 cs2 r1) ∧
    (m.required = false →
       m.fieldIndex ∉
         ((ms1 ++ ms2).filter (fun g => g.fieldName != "")).map (fun g => g.fieldIndex) →
       ((decodeCells codecs (ms1 ++ m :: ms2) (cs1 ++ s :: cs2) r).1)[m.fieldIndex]? =
         r[m.fieldIndex]?) := by
  have happ := decodeCells_append codecs ms1 cs1 (m :: ms2) (s :: cs2) r hlen
  rw [hpre] at happ
  have hcell := decodeCell_empty codecs m s hname hempty
  refine ⟨?_, ?_, ?_⟩
  · intro hreq
    rw [happ]
    simp only [decodeCells, hcell, hreq, if_true]
  · intro hreq
    rw [happ]
    simp only [decodeCells, hcell, hreq, Bool.false_eq_true, if_false]
  · intro hreq hnotin
    have hnotin1 : m.fieldIndex ∉
        (ms1.filter (fun g => g.fieldName != "")).map (fun g => g.fieldIndex) := by
      intro hmem
      apply hnotin
      obtain ⟨g, hg, hgi⟩ := List.mem_map.mp hmem
      exact List.mem_map.mpr ⟨g, by
        rw [List.filter_append]
        exact List.mem_append_left _ hg, hgi⟩
    have hnotin2 : m.fieldIndex ∉
        (ms2.filter (fun g => g.fieldName != "")).map (fun g => g.fieldIndex) := by
      intro hmem
      apply hnotin
      obtain ⟨g, hg, hgi⟩ := List.mem_map.mp hmem
      exact List.mem_map.mpr ⟨g, by
        rw [List.filter_append]
        exact List.mem_append_right _ hg, hgi⟩
    rw [happ]
    simp only [decodeCells, hcell, hreq, Bool.false_eq_true, if_false]
    rw [decodeCells_writes_only codecs ms2 cs2 r1 m.fieldIndex hnotin2]
    have := decodeCells_writes_only codecs ms1 cs1 r m.fieldIndex hnotin1
    rw [hpre] at this
    exact this

/-- Witness for C5: the `TestDecoderReadRequiredMissing` scenario — header
`string,extra`, row `["", ""]`, field `string` required — and its optional
variant. -/
theorem C5_witness :
    decodeCells noCodecs
        ([] ++ ⟨true, "string", 0, .kstring, .invalid, false, false⟩ ::
          [⟨false, "", 0, .invalid, .invalid, false, false⟩])
        ([] ++ "" :: [""]) [.vStr ""] =
      ([.vStr ""], some "column string required but no value found") :=
  (C5_empty_value noCodecs [] [⟨false, "", 0, .invalid, .invalid, false, false⟩]
    ⟨true, "string", 0, .kstring, .invalid, false, false⟩ [] [""] "" [.vStr ""] [.vStr ""]
    rfl (by decide) (by decide) rfl).1 rfl

/-- **C9.**  If the per-row loop fails at some cell `k` (of a row with the
mapping's width), the returned record `r'` is exactly the record produced
by cleanly decoding the cells before `k` (fields decoded from earlier cells
keep their newly decoded values — partial mutation is observable), the
error arises from cell `k` itself applied to `r'` (which it leaves
untouched), and every field mapped from cell `k` or a later cell — its
struct position not being shared with a slot of the decoded prefix — still
holds its pre-call value. -/
theorem C9_partial_mutation_on_error (codecs : Codecs) (ms : List csvField)
    (cs : List String) (r r' : Record) (e : String)
    (hlen : ms.length = cs.length)
    (herr : decodeCells codecs ms cs r = (r', some e)) :
    ∃ k, k < ms.length ∧
      decodeCells codecs (ms.take k) (cs.take k) r = (r', none) ∧
      decodeCells codecs (ms.drop k) (cs.drop k) r' = (r', some e) ∧
      ∀ f ∈ ms.drop k, f.fieldName ≠ "" →
        f.fieldIndex ∉
          ((ms.take k).filter (fun g => g.fieldName != "")).map (fun g => g.fieldIndex) →
        r'[f.fieldIndex]? = r[f.fieldIndex]? := by
  obtain ⟨k, hk, h1, h2⟩ := decodeCells_error_split codecs ms cs r r' e hlen herr
  refine ⟨k, hk, h1, h2, ?_⟩
  intro f _ _ hnotin
  have := decodeCells_writes_only codecs (ms.take k) (cs.take k) r f.fieldIndex hnotin
  rw [h1] at this
  exact this

/-- Witness for C9: row `["7", "x"]` over two int fields — the first cell's
decoded value is kept in the returned record, the second field is
untouched. -/
theorem C9_witness :
    ∃ k, k < 2 ∧
      decodeCells noCodecs
        (([⟨false, "a", 0, .kint, .invalid, false, false⟩,
           ⟨false, "b", 1, .kint, .invalid, false, false⟩] : List csvField).take k)
        ((["7", "x"] : List String).take k) [.vInt 0, .vInt 5] =
        ([.vInt 7, .vInt 5], none) ∧
      decodeCells noCodecs
        (([⟨false, "a", 0, .kint, .invalid, false, false⟩,
           ⟨false, "b", 1, .kint, .invalid, false, false⟩] : List csvField).drop k)
        ((["7", "x"] : List String).drop k) [.vInt 7, .vInt 5] =
        ([.vInt 7, .vInt 5], some "failed to coerce value 'x' into integer for field b") ∧
      ∀ f ∈ ([⟨false, "a", 0, .kint, .invalid, false, false⟩,
              ⟨false, "b", 1, .kint, .invalid, false, false⟩] : List csvField).drop k,
        f.fieldName ≠ "" →
        f.fieldIndex ∉
          ((([⟨false, "a", 0, .kint, .invalid, false, false⟩,
              ⟨false, "b", 1, .kint, .invalid, false, false⟩] : List csvField).take k).filter
            (fun g => g.fieldName != "")).map (fun g => g.fieldIndex) →
        ([Value.vInt 7, Value.vInt 5] : Record)[f.fieldIndex]? =
          ([Value.vInt 0, Value.vInt 5] : Record)[f.fieldIndex]? :=
  C9_partial_mutation_on_error noCodecs
    [⟨false, "a", 0, .kint, .invalid, false, false⟩,
     ⟨false, "b", 1, .kint, .invalid, false, false⟩]
    ["7", "x"] [.vInt 0, .vInt 5] [.vInt 7, .vInt 5]
    "failed to coerce value 'x' into integer for field b" rfl (by decide)

/-- The element loop of the list-of-integer branch fails at the FIRST
non-parsing element, with the documented message carrying the element, its
index, the field name and `strconv.Atoi`'s cause. -/
theorem parseIntsAux_first_fail (name : String) :
    ∀ (parts : List String) (i k : Nat) (cause : String),
      k < parts.length →
      (∀ j, j < k → ∃ n, atoi (parts.getD j "") = .ok n) →
      atoi (parts.getD k "") = .error cause →
      parseIntsAux name i parts = .error
        ("failed to coerce value '" ++ parts.getD k "" ++ "' (indexed " ++ toString (i + k)
          ++ ") into integer for field " ++ name ++ ": " ++ cause)
  | [], i, k, cause, hk, _, _ => by simp at hk
  | p :: rest, i, 0, cause, _, _, hfail => by
    rw [List.getD_cons_zero] at hfail
    simp only [parseIntsAux, hfail, List.getD_cons_zero, Nat.add_zero]
  | p :: rest, i, k + 1, cause, hk, hok, hfail => by
    obtain ⟨n, hn⟩ := hok 0 (Nat.succ_pos k)
    rw [List.getD_cons_zero] at hn
    have hrec := parseIntsAux_first_fail name rest (i + 1) k cause
      (by simpa using hk)
      (fun j hj => by
        obtain ⟨n', hn'⟩ := hok (j + 1) (by omega)
        exact ⟨n', by simpa using hn'⟩)
      (by simpa using hfail)
    have harith : i + 1 + k = i + (k + 1) := by omega
    rw [harith] at hrec
    simp only [parseIntsAux, hn, hrec, List.getD_cons_succ]

/-- **C3 counterexample.**  A schema with the single supported string
field `s` (no custom codec anywhere) and the record `[" x "]`: encoding
writes the cell `" x "` verbatim, but `Decoder.Read` trims every cell
before interpreting it, so decoding yields `["x"] ≠ [" x "]`.  The
round-trip law as claimed (for every record over supported kinds) is
false. -/
theorem C3_counterexample :
    eWrite noCodecs [⟨false, "s", 0, .kstring, .invalid, false, false⟩]
        (.byValue [.vStr " x "]) = .ok [" x "] ∧
    newDecoder [⟨false, "s", 0, .kstring, .invalid, false, false⟩] ["s"] [[" x "]] =
      .ok ⟨[⟨false, "s", 0, .kstring, .invalid, false, false⟩], 1, [[" x "]]⟩ ∧
    dRead noCodecs ⟨[⟨false, "s", 0, .kstring, .invalid, false, false⟩], 1, [[" x "]]⟩
        (zeroRecord [⟨false, "s", 0, .kstring, .invalid, false, false⟩]) =
      (.ok, [.vStr "x"], ⟨[⟨false, "s", 0, .kstring, .invalid, false, false⟩], 1, []⟩) ∧
    ([Value.vStr "x"] : Record) ≠ [Value.vStr " x "] := by
  refine ⟨by decide, by decide, by decide, by decide⟩

/-- **C3 amended.**  Encode-then-decode is the identity for every record
whose schema (a fully tagged struct: `fieldIndex` = declaration position,
non-empty pairwise-distinct normalized names) carries only supported field
kinds, where each value additionally avoids what the decoder's cell
handling destroys: string values and custom-codec output must be non-empty
(unless the field is optional and the value is the zero value) and free of
surrounding whitespace; list elements must be comma-free; custom codecs
must be faithful.  Under those conditions encoding succeeds, a decoder
constructed against the encoder's own header row reconciles to the
identity, and reading the produced row into a fresh zero record returns
exactly the original record. -/
theorem C3_roundtrip (codecs : Codecs) (mappings : List csvField) (src : Record)
    (hidx : ∀ k, k < mappings.length → (mappings.getD k default).fieldIndex = k)
    (hlen : src.length = mappings.length)
    (hnames : ∀ m ∈ mappings, m.fieldName ≠ "")
    (hnodup : (mappings.map (fun g => normalizeHeader g.fieldName)).Nodup)
    (hvals : ∀ k, k < mappings.length →
      GoodValue codecs (mappings.getD k default) (src.getD k default)) :
    ∃ row, eWrite codecs mappings (.byValue src) = .ok row ∧
      newDecoder mappings (mappings.map (fun m => m.fieldName)) [row] =
        .ok ⟨mappings, mappings.length, [row]⟩ ∧
      dRead codecs ⟨mappings, mappings.length, [row]⟩ (zeroRecord mappings) =
        (.ok, src, ⟨mappings, mappings.length, []⟩) := by
  have haudit : ∀ m ∈ mappings, m.fieldType = .invalid → m.customUnmarshaler = true := by
    intro m hm hinv
    obtain ⟨k, hk, hkm⟩ := List.getElem_of_mem hm
    have hg := hvals k hk
    have hgd : mappings.getD k default = m := by
      rw [List.getD_eq_getElem?_getD, List.getElem?_eq_getElem hk, hkm]
      rfl
    rw [hgd] at hg
    unfold GoodValue at hg
    by_cases hcm : m.customMarshaler = true
    · rw [if_pos hcm] at hg
      exact hg.1
    · rw [if_neg hcm] at hg
      obtain ⟨_, hv⟩ := hg
      rw [hinv] at hv
      rcases src.getD k default with s | n | b | l | l | p <;> exact hv.elim
  obtain ⟨cells, r', h1, h2, h3, h4, h5⟩ :=
    roundtrip_core codecs src mappings 0 (zeroRecord mappings)
      (fun k hk => by simpa using hidx k hk)
      (fun k hk => by simpa using hvals k hk)
      hnames
      (fun k hk => by simpa [zeroRecord] using hk)
  have hzlen : (zeroRecord mappings).length = mappings.length := by
    simp [zeroRecord]
  have hr' : r' = src := by
    apply List.ext_getElem?
    intro j
    by_cases hj : j < mappings.length
    · have hsrcj : src[j]? = some (src.getD j default) := by
        rw [List.getD_eq_getElem?_getD, List.getElem?_eq_getElem (by omega)]
        rfl
      rcases h4 j hj with h | ⟨ha, hb⟩
      · rw [Nat.zero_add] at h
        rw [h, hsrcj]
      · rw [Nat.zero_add] at ha hb
        have hmapj : mappings[j]? = some (mappings.getD j default) := by
          rw [List.getD_eq_getElem?_getD, List.getElem?_eq_getElem hj]
          rfl
        have hz : (zeroRecord mappings)[j]? =
            some (zeroValueOf (mappings.getD j default)) := by
          unfold zeroRecord
          rw [List.getElem?_map, hmapj]
          rfl
        rw [ha, hz, ← hb, hsrcj]
    · have h1' := h5 j (fun k hk => by omega)
      have hz : (zeroRecord mappings)[j]? = none :=
        List.getElem?_eq_none_iff.mpr (by omega)
      have hs : src[j]? = none := List.getElem?_eq_none_iff.mpr (by omega)
      rw [h1', hz, hs]
  rw [hr'] at h3
  refine ⟨cells, ?_, newDecoder_identity mappings [cells] haudit hnodup, ?_⟩
  · simp only [eWrite, h1]
  · simp only [dRead]
    rw [if_neg (fun hne => hne h2), h3]

/-- Witness for C3 amended at a concrete two-field schema (`s` string,
`n` required int) and the record `{Str: "hi", N: -3}`. -/
theorem C3_roundtrip_witness :
    ∃ row, eWrite noCodecs
        [⟨false, "s", 0, .kstring, .invalid, false, false⟩,
         ⟨true, "n", 1, .kint, .invalid, false, false⟩]
        (.byValue [.vStr "hi", .vInt (-3)]) = .ok row ∧
      newDecoder
        [⟨false, "s", 0, .kstring, .invalid, false, false⟩,
         ⟨true, "n", 1, .kint, .invalid, false, false⟩]
        (([⟨false, "s", 0, .kstring, .invalid, false, false⟩,
           ⟨true, "n", 1, .kint, .invalid, false, false⟩] : List csvField).map
          (fun m => m.fieldName)) [row] =
        .ok ⟨[⟨false, "s", 0, .kstring, .invalid, false, false⟩,
              ⟨true, "n", 1, .kint, .invalid, false, false⟩], 2, [row]⟩ ∧
      dRead noCodecs
        ⟨[⟨false, "s", 0, .kstring, .invalid, false, false⟩,
          ⟨true, "n", 1, .kint, .invalid, false, false⟩], 2, [row]⟩
        (zeroRecord
          [⟨false, "s", 0, .kstring, .invalid, false, false⟩,
           ⟨true, "n", 1, .kint, .invalid, false, false⟩]) =
        (.ok, [.vStr "hi", .vInt (-3)],
          ⟨[⟨false, "s", 0, .kstring, .invalid, false, false⟩,
            ⟨true, "n", 1, .kint, .invalid, false, false⟩], 2, []⟩) :=
  C3_roundtrip noCodecs
    [⟨false, "s", 0, .kstring, .invalid, false, false⟩,
     ⟨true, "n", 1, .kint, .invalid, false, false⟩]
    [.vStr "hi", .vInt (-3)]
    (by
      intro k hk
      have hk2 : k < 2 := by simpa using hk
      interval_cases k <;> rfl)
    rfl
    (by decide)
    (by decide)
    (by
      intro k hk
      have hk2 : k < 2 := by simpa using hk
      interval_cases k <;> simp [GoodValue, List.getD] <;> decide)

/-- **C4.**  On a mapped list-of-integer cell (trimmed, non-empty, no
custom unmarshaler): if the comma-separated element at index `k` is the
first to fail integer parsing, the call returns
`failed to coerce value '<elem>' (indexed <k>) into integer for field
<name>: <cause>` and the destination record — in particular the slice
field — is returned completely unmodified; the field is assigned (in one
step, after the element loop) only when every element parses. -/
theorem C4_list_int_first_failure (codecs : Codecs) (m : csvField) (s : String)
    (hname : m.fieldName ≠ "") (hval : trimSpace s ≠ "")
    (hnc : m.customUnmarshaler = false) (hty : m.fieldType = .kslice)
    (hsl : m.sliceType = .kint) :
    (∀ (k : Nat) (cause : String),
       k < (splitComma (trimSpace s)).length →
       (∀ j, j < k → ∃ n, atoi ((splitComma (trimSpace s)).getD j "") = .ok n) →
       atoi ((splitComma (trimSpace s)).getD k "") = .error cause →
       ∀ (ms : List csvField) (ss : List String) (r : Record),
         decodeCells codecs (m :: ms) (s :: ss) r =
           (r, some ("failed to coerce value '" ++ (splitComma (trimSpace s)).getD k ""
             ++ "' (indexed " ++ toString k ++ ") into integer for field "
             ++ m.fieldName ++ ": " ++ cause))) ∧
    (∀ ns, parseIntsAux m.fieldName 0 (splitComma (trimSpace s)) = .ok ns →
       ∀ (ms : List csvField) (ss : List String) (r : Record),
         decodeCells codecs (m :: ms) (s :: ss) r =
           decodeCells codecs ms ss (setField r m.fieldIndex (.vInts ns))) := by
  constructor
  · intro k cause hk hok hfail ms ss r
    have hparse := parseIntsAux_first_fail m.fieldName (splitComma (trimSpace s))
      0 k cause hk hok hfail
    rw [Nat.zero_add] at hparse
    simp only [decodeCells, decodeCell, hname, hval, hnc, hty, hsl, hparse,
      if_neg (by exact hname), if_neg (by exact hval), Bool.false_eq_true, if_false]
  · intro ns hns ms ss r
    simp only [decodeCells, decodeCell, hname, hval, hnc, hty, hsl, hns,
      if_neg (by exact hname), if_neg (by exact hval), Bool.false_eq_true, if_false]

/-- Witness for C4 at the cell `"1,x,3"`: element 1 (`x`) is the first
failure; the record is returned unmodified. -/
theorem C4_witness :
    decodeCells noCodecs [⟨false, "xs", 0, .kslice, .kint, false, false⟩] ["1,x,3"]
        [.vInts [9]] =
      ([.vInts [9]], some ("failed to coerce value 'x' (indexed 1) into integer for field xs: "
        ++ "strconv.Atoi: parsing \"x\": invalid syntax")) := by
  have h := (C4_list_int_first_failure noCodecs
    ⟨false, "xs", 0, .kslice, .kint, false, false⟩ "1,x,3"
    (by decide) (by decide) rfl rfl rfl).1 1
    "strconv.Atoi: parsing \"x\": invalid syntax"
    (by decide) (fun j hj => by interval_cases j; exact ⟨1, by decide⟩) (by decide)
    [] [] [.vInts [9]]
  simpa using h

/-- **C10.**  In `structureFromStruct`, a csv tag that splits into exactly
two comma-separated tokens with an empty first token (e.g. `,required`,
`,foo`) makes the field silently excluded — the loop `continue`s without
validating the second token — so the unknown-second-value error can only
arise for a field with a non-empty column name; the more-than-two-tokens
check still precedes both (it fires even when the first token is empty). -/
theorem C10_empty_name_skips_second_token_check :
    (∀ (i : Nat) (acc : List csvField) (rest : List GoField) (f : GoField) (t : String),
       splitComma f.tag = ["", t] →
       structAux i acc (f :: rest) = structAux (i + 1) acc rest) ∧
    (∀ (acc : List csvField) (i : Nat) (f : GoField) (t : String),
       splitComma f.tag = ["", t] → deriveField acc i f = .ok none) ∧
    (∀ (acc : List csvField) (i : Nat) (f : GoField),
       2 < (splitComma f.tag).length →
       deriveField acc i f = .error
         ("csvutil tags should only include name [and optionally required], found "
           ++ toString (splitComma f.tag).length ++ " values")) := by
  refine ⟨?_, ?_, ?_⟩
  · intro i acc rest f t hsplit
    simp only [structAux, deriveField, hsplit]
    norm_num [List.headI]
  · intro acc i f t hsplit
    simp only [deriveField, hsplit]
    norm_num [List.headI]
  · intro acc i f hlen
    simp only [deriveField, if_pos hlen]

/-- Witness for C10 at the concrete tags `,required` and `,,`. -/
theorem C10_witness :
    structAux 0 [] [⟨"A", ",required", .kstring, .invalid, false, false⟩] = structAux 1 [] [] ∧
    deriveField [] 0 ⟨"A", ",foo", .kstring, .invalid, false, false⟩ = .ok none ∧
    deriveField [] 0 ⟨"A", ",,", .kstring, .invalid, false, false⟩ = .error
      ("csvutil tags should only include name [and optionally required], found "
        ++ toString (splitComma (",," : String)).length ++ " values") :=
  ⟨C10_empty_name_skips_second_token_check.1 0 [] [] _ "required" (by decide),
   C10_empty_name_skips_second_token_check.2.1 [] 0 _ "foo" (by decide),
   C10_empty_name_skips_second_token_check.2.2 [] 0 _ (by decide)⟩

/-- **C8 counterexample.**  A typed nil pointer (`(*S)(nil)` passed as
`interface{}`) is a "reference-to-value form that refers to nothing", yet
`Encoder.Write` does not reject it with an error: `src == nil` is false for
it, `Elem()` yields the invalid `reflect.Value`, and the first per-field
access panics.  So the claim that every nil/absent source is rejected with
an error before any per-field work is false. -/
theorem C8_counterexample :
    eWrite noCodecs [{ fieldName := "s", fieldType := .kstring }] (.byPtr none) =
      .panicked "reflect: call of reflect.Value.Field on zero Value" ∧
    ∀ msg, eWrite noCodecs [{ fieldName := "s", fieldType := .kstring }] (.byPtr none) ≠
      .err msg := by
  constructor
  · rfl
  · intro msg h
    simp [eWrite] at h

/-- **C8 amended.**  `Encoder.Write` rejects the untyped nil interface
source with an error before any per-field work; a typed nil pointer passes
the nil check, and (whenever the schema has at least one field, which
construction guarantees) the first per-field access panics instead of
returning an error. -/
theorem C8_amended (codecs : Codecs) (mappings : List csvField) :
    eWrite codecs mappings .nilInterface = .err "Source struct passed in cannot be nil" ∧
    (mappings ≠ [] →
      eWrite codecs mappings (.byPtr none) =
        .panicked "reflect: call of reflect.Value.Field on zero Value") := by
  constructor
  · rfl
  · intro hne
    cases mappings with
    | nil => exact absurd rfl hne
    | cons m ms => rfl

/-- Witness for C8 amended at a concrete one-field schema. -/
theorem C8_amended_witness :
    eWrite noCodecs [{ fieldName := "s", fieldType := .kstring }] .nilInterface =
      .err "Source struct passed in cannot be nil" ∧
    eWrite noCodecs [{ fieldName := "s", fieldType := .kstring }] (.byPtr none) =
      .panicked "reflect: call of reflect.Value.Field on zero Value" :=
  ⟨(C8_amended noCodecs _).1, (C8_amended noCodecs _).2 (by decide)⟩

/-- **C6 counterexample.**  After the last data row has been consumed, the
end-of-stream signal is returned on the first call — and again on the next
call (the reader state does not change), so it is not returned "exactly
once".  Concretely: one data row; the first read succeeds, the second read
returns `io.EOF` with the decoder state unchanged, and the third read (the
identical application) returns `io.EOF` again. -/
theorem C6_counterexample :
    dRead noCodecs ⟨[{ fieldName := "s", fieldType := .kstring }], 1, [["x"]]⟩ [.vStr ""] =
      (.ok, [.vStr "x"], ⟨[{ fieldName := "s", fieldType := .kstring }], 1, []⟩) ∧
    dRead noCodecs ⟨[{ fieldName := "s", fieldType := .kstring }], 1, []⟩ [.vStr "x"] =
      (.eof, [.vStr "x"], ⟨[{ fieldName := "s", fieldType := .kstring }], 1, []⟩) ∧
    (dRead noCodecs
        (dRead noCodecs ⟨[{ fieldName := "s", fieldType := .kstring }], 1, []⟩ [.vStr "x"]).2.2
        [.vStr "x"]).1 = .eof := by
  refine ⟨by decide, by decide, by decide⟩

/-- **C6 amended.**  Once the underlying reader is exhausted, `Read`
returns the end-of-stream signal on that call and on every subsequent call
(the state is returned unchanged); a call that still consumes a data row
never returns the signal; and the signal is distinguishable from every
wrapped row-content error. -/
theorem C6_amended (codecs : Codecs) (d : DecoderM) (dest : Record) :
    (d.rows = [] → dRead codecs d dest = (.eof, dest, d)) ∧
    (d.rows ≠ [] → (dRead codecs d dest).1 ≠ .eof) ∧
    (∀ msg, (ReadRes.err msg) ≠ .eof) := by
  refine ⟨?_, ?_, ?_⟩
  · intro hrows
    obtain ⟨ms, n, rows⟩ := d
    simp only at hrows
    subst hrows
    rfl
  · intro hrows
    obtain ⟨ms, n, rows⟩ := d
    cases rows with
    | nil => exact absurd rfl hrows
    | cons row rest =>
      simp only [dRead]
      split
      · simp
      · rcases h : decodeCells codecs ms row dest with ⟨r, e⟩
        cases e <;> simp [h]
  · intro msg h
    exact ReadRes.noConfusion h

/-- Witness for C6 amended at a concrete exhausted decoder. -/
theorem C6_amended_witness :
    dRead noCodecs ⟨[{ fieldName := "s", fieldType := .kstring }], 1, []⟩ [.vStr "x"] =
      (.eof, [.vStr "x"], ⟨[{ fieldName := "s", fieldType := .kstring }], 1, []⟩) ∧
    (dRead noCodecs ⟨[{ fieldName := "s", fieldType := .kstring }], 1, [["y"]]⟩ [.vStr "x"]).1
      ≠ .eof :=
  ⟨(C6_amended noCodecs _ _).1 rfl, (C6_amended noCodecs _ _).2.1 (by decide)⟩

end Csvutil
